import Mathlib

/-!
# Symbol resolution and price cache of the stock dashboard client (`src/new.js`)

A shallow embedding of the parts of `new.js` that carry logic:

* `levenshtein`, `symbolAliases`, `resolveSymbol` (lines 75-115),
* `getPrice` and the price cache (lines 19-63),
* `addStock` and `updateAllSymbols` (lines 158-221).

A JavaScript string is modelled as the list of its UTF-16 code units, each held in a
`Char`.  `trim` follows the ECMAScript definition of white space; `toLowerCase` and
`toUpperCase` map the ASCII letters and keep every other code unit, which is what the
engine does on every string whose cased letters are ASCII.  The theorems about
`levenshtein` hold for lists over any type with decidable equality.

Property reads on the object literal `symbolAliases` follow the prototype chain, as in
the language: a name such as `constructor` is found on `Object.prototype`.

Asynchronous calls are modelled in big steps: the clock readings and the outcome of each
network fetch are explicit inputs of the step, and the step returns the new session
state.  DOM updates, alerts, chart redraws and the `localStorage` snapshot (written by
`persistCache`, read only once at page load) are not part of the modelled state.
-/

set_option autoImplicit false

namespace StockBot

/-! ## Strings -/

/-- A JavaScript string, as the list of its code units. -/
abbrev JSString := List Char

/-- Characters removed by `String.prototype.trim`: ECMAScript `WhiteSpace`
(TAB, VT, FF, SP, NBSP, ZWNBSP and the Unicode space separators) and `LineTerminator`
(LF, CR, LS, PS). -/
def isTrimChar (c : Char) : Bool :=
  let n := c.toNat
  n == 0x09 || n == 0x0A || n == 0x0B || n == 0x0C || n == 0x0D || n == 0x20
    || n == 0xA0 || n == 0x1680 || (0x2000 ≤ n && n ≤ 0x200A)
    || n == 0x2028 || n == 0x2029 || n == 0x202F || n == 0x205F || n == 0x3000
    || n == 0xFEFF

/-- The method `trim` of a string: strips leading and trailing white space. -/
def trim (s : JSString) : JSString :=
  ((s.dropWhile isTrimChar).reverse.dropWhile isTrimChar).reverse

/-- The method `toLowerCase`, on the letters `A`-`Z`; every other code unit is kept
(the Unicode case tables beyond ASCII are not embedded). -/
def toLowerCase (s : JSString) : JSString := s.map Char.toLower

/-- The method `toUpperCase`, on the letters `a`-`z`; every other code unit is kept. -/
def toUpperCase (s : JSString) : JSString := s.map Char.toUpper

/-- The string consists of ASCII code units; on such a string the two case maps above
are those of the engine. -/
def isAscii (s : JSString) : Prop := ∀ c ∈ s, c.toNat < 128

/-! ## Levenshtein distance (lines 90-101) -/

section Levenshtein

variable {α : Type} [DecidableEq α]

/-- Columns `j, j+1, ...` of row `i ≥ 1` of the table `dp`, given `x = a[i-1]`, the rest
`b[j-1..]` of `b`, the rest `dp[i-1][j-1..]` of the previous row and `left = dp[i][j-1]`:
`dp[i][j] = Math.min(dp[i-1][j]+1, dp[i][j-1]+1, dp[i-1][j-1]+cost)` (lines 95-98). -/
def fillRow (x : α) : List α → List Nat → Nat → List Nat
  | y :: ys, diag :: up :: prev, left =>
    let cost := if x = y then 0 else 1
    let v := min (min (up + 1) (left + 1)) (diag + cost)
    v :: fillRow x ys (up :: prev) v
  | _, _, _ => []

/-- Row `i ≥ 1` of `dp` from row `i-1`: `dp[i][0] = i` (line 92), then the inner loop. -/
def nextRow (x : α) (b : List α) (i : Nat) (prev : List Nat) : List Nat :=
  i :: fillRow x b prev i

/-- Row `0` of `dp`: `dp[0][j] = j` for `0 ≤ j ≤ b.length` (line 93). -/
def firstRow (b : List α) : List Nat := List.range (b.length + 1)

/-- Rows `i, i+1, ..., a.length` of `dp`, where `row` is row `i` and `as = a[i..]`
(outer loop, line 94). -/
def dpRows (b : List α) : List α → Nat → List Nat → List (List Nat)
  | [], _, row => [row]
  | x :: xs, i, row => row :: dpRows b xs (i + 1) (nextRow x b (i + 1) row)

/-- The whole table `dp` of `levenshtein(a, b)`, as the list of its rows. -/
def dpTable (a b : List α) : List (List Nat) := dpRows b a 0 (firstRow b)

/-- The function `levenshtein(a, b)`: the entry `dp[a.length][b.length]` (line 100). -/
def levenshtein (a b : List α) : Nat :=
  ((dpTable a b).getD a.length []).getD b.length 0

end Levenshtein

/-! ## Alias table and `resolveSymbol` (lines 75-89, 102-115) -/

/-- The object `symbolAliases`, in the order of the literal (which is the order of
`Object.keys`, no key being an integer index). -/
def symbolAliases : List (JSString × JSString) :=
  [ ("apple", "AAPL"), ("appl", "AAPL"), ("applt", "AAPL"),
    ("fb", "FB"), ("facebook", "FB"), ("meta", "FB"),
    ("googl", "GOOG"), ("google", "GOOG"),
    ("tsla", "TSLA"),
    ("pypl", "PYPL"), ("paypal", "PYPL"),
    ("msft", "MSFT"), ("microsoft", "MSFT"),
    ("amzn", "AMZN"), ("amazon", "AMZN"),
    ("nflx", "NFLX"), ("netflix", "NFLX"),
    ("intc", "INTC"), ("intel", "INTC"),
    ("dis", "DIS"), ("disney", "DIS"),
    ("nvda", "NVDA"), ("nvidia", "NVDA"),
    ("crm", "CRM"), ("salesforce", "CRM"),
    ("adbe", "ADBE"), ("adobe", "ADBE") ].map
    (fun kv : String × String => (kv.1.toList, kv.2.toList))

/-- Names of the members that an object literal inherits from `Object.prototype`;
a bracket read `obj[name]` finds them when `obj` has no own property `name`. -/
def objectPrototypeMembers : List JSString :=
  [ "constructor", "__defineGetter__", "__defineSetter__", "hasOwnProperty",
    "__lookupGetter__", "__lookupSetter__", "isPrototypeOf", "propertyIsEnumerable",
    "toString", "valueOf", "__proto__", "toLocaleString" ].map String.toList

/-- The values that a read `symbolAliases[key]` can produce, and hence the values that
`resolveSymbol` can return. -/
inductive JSValue
  /-- A string. -/
  | str (s : JSString)
  /-- The member `name` of `Object.prototype` (a function, or for `__proto__` the
  prototype object itself): not a string, and truthy. -/
  | inherited (name : JSString)
  /-- The value `undefined`. -/
  | undefined
  deriving DecidableEq, Repr

/-- The read `symbolAliases[key]`: an own property, else an inherited one, else `undefined`. -/
def aliasLookup (key : JSString) : JSValue :=
  match symbolAliases.lookup key with
  | some sym => .str sym
  | none => if key ∈ objectPrototypeMembers then .inherited key else .undefined

/-- Truthiness of a value in a condition. -/
def JSValue.truthy : JSValue → Bool
  | .str s => !s.isEmpty
  | .inherited _ => true
  | .undefined => false

/-- One iteration of the `forEach` of lines 107-113 on the pair `(best, minDist)`;
`minDist = none` stands for `Infinity`. -/
def fuzzyStep (input : JSString) (acc : JSValue × Option Nat) (kv : JSString × JSString) :
    JSValue × Option Nat :=
  let dist := levenshtein input (toLowerCase kv.1)
  let below : Bool := match acc.2 with
    | none => true
    | some m => decide (dist < m)
  if below && decide (dist ≤ 2) then (.str kv.2, some dist) else acc

/-- The function `resolveSymbol(input)`. -/
def resolveSymbol (input : JSString) : JSValue :=
  let input := trim (toLowerCase input)
  if (aliasLookup input).truthy then aliasLookup input
  else (symbolAliases.foldl (fuzzyStep input) (.str (toUpperCase input), none)).1


/-! ## The edit distance, as the specification words it -/

section EditDistance

variable {α : Type}

/-- One single-character edit, anywhere in the string: an insertion, a deletion or a
substitution of one character by a different one. -/
inductive EditStep : List α → List α → Prop
  | insert (pre : List α) (c : α) (suf : List α) : EditStep (pre ++ suf) (pre ++ c :: suf)
  | delete (pre : List α) (c : α) (suf : List α) : EditStep (pre ++ c :: suf) (pre ++ suf)
  | substitute (pre : List α) (c d : α) (suf : List α) (h : c ≠ d) :
      EditStep (pre ++ c :: suf) (pre ++ d :: suf)

/-- `EditPath n a b`: some sequence of exactly `n` single-character edits turns `a` into `b`. -/
inductive EditPath : Nat → List α → List α → Prop
  | refl (a : List α) : EditPath 0 a a
  | step {n : Nat} {a b c : List α} (h : EditStep a b) (t : EditPath n b c) :
      EditPath (n + 1) a c

/-- The textbook recurrence of the edit distance, on the first characters:
used as the bridge between the table `dp` and `EditPath`. -/
def editRec [DecidableEq α] : List α → List α → Nat
  | [], b => b.length
  | x :: xs, [] => (x :: xs).length
  | x :: xs, y :: ys =>
    min (min (editRec xs (y :: ys) + 1) (editRec (x :: xs) ys + 1))
      (editRec xs ys + if x = y then 0 else 1)
termination_by a b => a.length + b.length

/-- The values `f q, f (q ++ [y₁]), f (q ++ [y₁, y₂]), ...` along the prefixes of `q ++ ys`
that extend `q`: the shape of one row of `dp`. -/
def alongPrefixes (f : List α → Nat) : List α → List α → List Nat
  | q, [] => [f q]
  | q, y :: ys => f q :: alongPrefixes f (q ++ [y]) ys

end EditDistance

/-! ## Session objects (lines 6-21)

`priceCache`, `chartData` and `assignedColors` are plain objects used as maps.  Their
property keys are the values returned by `resolveSymbol` (line 162) or keys read back
from `Object.keys(chartData)` (line 202).  Conversion to a property key is injective on
these values and none of them names a member of `Object.prototype`, whose names all
contain a lower-case letter; so a key is modelled by the value itself. -/

/-- A property key of the session objects. -/
abbrev Ticker := JSValue

/-- A plain object used as a map from tickers: its own properties, in creation order. -/
abbrev Obj (β : Type) := List (Ticker × β)

section Obj

variable {β : Type}

/-- The read `o[k]`: `none` stands for `undefined`. -/
def Obj.get (o : Obj β) (k : Ticker) : Option β := List.lookup k o

/-- The write `o[k] = v`: an existing property keeps its place, a new one is created last. -/
def Obj.set : Obj β → Ticker → β → Obj β
  | [], k, v => [(k, v)]
  | (k', v') :: o, k, v => if k' = k then (k, v) :: o else (k', v') :: Obj.set o k v

/-- In-place update of the value `o[k]`, as done by `o[k].x.push(...)`; the code does this
only for a key that the object has. -/
def Obj.modify : Obj β → Ticker → (β → β) → Obj β
  | [], _, _ => []
  | (k', v') :: o, k, f => if k' = k then (k', f v') :: o else (k', v') :: Obj.modify o k f

/-- The number a key denotes when it is an array index: a canonical decimal numeral
below `2^32 - 1`. -/
def arrayIndex : Ticker → Option Nat
  | .str s =>
    let n := s.foldl (fun acc c => 10 * acc + (c.toNat - 48)) 0
    if s ≠ [] ∧ s.all Char.isDigit = true ∧ (s.head? ≠ some '0' ∨ s.length = 1) ∧ n < 2 ^ 32 - 1
    then some n else none
  | _ => none

/-- The list `Object.keys(o)`: array indices in ascending order, then the other keys in
creation order. -/
def Obj.keys (o : Obj β) : List Ticker :=
  ((o.map Prod.fst).filter (fun k => (arrayIndex k).isSome)).insertionSort
      (fun a b => (arrayIndex a).getD 0 ≤ (arrayIndex b).getD 0)
    ++ (o.map Prod.fst).filter (fun k => (arrayIndex k).isNone)

/-- An object has no two properties of the same key. -/
def Obj.WF (o : Obj β) : Prop := (o.map Prod.fst).Nodup

end Obj

/-! ## Price cache and `getPrice` (lines 19-63) -/

/-- The parsed JSON body of `/current_price/<symbol>`, as far as the code reads it: only
the member `price` is ever read, and only for its truthiness and its value. -/
inductive PriceData
  /-- The body `null`: reading `data.price` throws a `TypeError`. -/
  | null
  /-- Any other body; `price` is its numeric member `price`, when it has one. -/
  | body (price : Option ℚ)
  deriving DecidableEq

/-- The value `data.price` when it is truthy, for the numeric `price` of the backend
contract (`{ price?: number }`): a number other than `0`. -/
def usablePrice : PriceData → Option ℚ
  | .body (some p) => if p = 0 then none else some p
  | _ => none

/-- An entry `{ data, timestamp }` of `priceCache`. -/
structure CacheEntry where
  data : PriceData
  timestamp : Int
  deriving DecidableEq

/-- The constant `CACHE_TTL`, in milliseconds (line 21). -/
def CACHE_TTL : Int := 60000

/-- Outcome of the two awaited operations of lines 55-56. -/
inductive FetchResult
  /-- The call `fetch(...)` rejects (a transport error). -/
  | networkError
  /-- The call `fetch(...)` resolves to an answer with the HTTP status `status`;
  `body = none` when the body is not JSON, in which case `res.json()` rejects. -/
  | response (status : Nat) (body : Option PriceData)
  deriving DecidableEq

/-- The property `res.ok` of an answer: the status is in the range 200-299. -/
def statusOk (status : Nat) : Bool := decide (200 ≤ status) && decide (status ≤ 299)

/-- The failures that reach `getPrice` as a rejection: `fetch(...)` rejects, or
`res.json()` rejects.  Lines 55-56 read neither `res.ok` nor `res.status`. -/
def FetchResult.rejected : FetchResult → Bool
  | .networkError => true
  | .response _ none => true
  | .response _ (some _) => false

/-- The `NetworkFailure` of the specification (section 7): the fetch is rejected or the
answer is not OK. -/
def FetchResult.networkFailure : FetchResult → Bool
  | .networkError => true
  | .response status _ => !statusOk status

/-- Result of one call of `getPrice`. -/
structure PriceResult where
  /-- The value the promise resolves to; `none` when it is rejected. -/
  value : Option PriceData
  /-- Whether a network fetch was issued. -/
  fetched : Bool
  /-- The object `priceCache` after the call. -/
  cache : Obj CacheEntry
  deriving DecidableEq

/-- The entry of `symbol` when the condition of line 50 holds:
`entry && (now - entry.timestamp < CACHE_TTL)`. -/
def freshEntry (priceCache : Obj CacheEntry) (symbol : Ticker) (now : Int) :
    Option CacheEntry :=
  match priceCache.get symbol with
  | some entry => if now - entry.timestamp < CACHE_TTL then some entry else none
  | none => none

/-- The function `getPrice(symbol)`, with `now` the reading of `Date.now()` at line 46 and
`net` the outcome of the fetch, consulted only when the fetch is issued. -/
def getPrice (priceCache : Obj CacheEntry) (symbol : Ticker) (now : Int)
    (net : FetchResult) : PriceResult :=
  match freshEntry priceCache symbol now with
  | some entry => { value := some entry.data, fetched := false, cache := priceCache }
  | none =>
    match net with
    | .networkError => { value := none, fetched := true, cache := priceCache }
    | .response _ none => { value := none, fetched := true, cache := priceCache }
    | .response _ (some data) =>
      { value := some data, fetched := true,
        cache := priceCache.set symbol { data := data, timestamp := now } }

/-! ## `addStock` and `updateAllSymbols` (lines 158-221) -/

/-- The array `palette` (lines 13-17). -/
def palette : List JSString :=
  [ "#FF5733", "#33FF57", "#3357FF", "#F39C12", "#8E44AD", "#1ABC9C",
    "#E74C3C", "#2ECC71", "#3498DB", "#9B59B6", "#E67E22", "#16A085",
    "#C0392B", "#27AE60", "#2980B9", "#8E44AD", "#D35400", "#2C3E50" ].map String.toList

/-- An entry of `chartData`: the arrays `x` (sample times, in milliseconds) and `y`
(prices), and the colour of the trace.  The array `timeStr` holds `formatTimeOnly` of the
entries of `x` and is not repeated; the other members are constants or the key. -/
structure Series where
  x : List Int
  y : List ℚ
  color : JSString
  deriving DecidableEq

/-- The three `push` calls of lines 187-189 and 212-214. -/
def Series.push (s : Series) (now : Int) (price : ℚ) : Series :=
  { s with x := s.x ++ [now], y := s.y ++ [price] }

/-- The mutable globals of the page. -/
structure Session where
  priceCache : Obj CacheEntry
  chartData : Obj Series
  assignedColors : Obj JSString
  colorIndex : Nat
  deriving DecidableEq

/-- How a call of `addStock` ends. -/
inductive AddOutcome
  /-- The alert `Select a stock from dropdown` (line 161). -/
  | selectPrompt
  /-- The alert `Symbol not found` (line 165). -/
  | notFound
  /-- The alert `Failed to fetch price` of the `catch` handler (line 196). -/
  | fetchFailed
  /-- A sample was appended. -/
  | added
  deriving DecidableEq

/-- Result of one call of `addStock`, run to completion. -/
structure AddResult where
  session : Session
  outcome : AddOutcome
  /-- Whether a network fetch was issued. -/
  fetched : Bool
  deriving DecidableEq

/-- The colour read `assignedColors[symbol]`, `[]` standing for a falsy value. -/
def colorOf (colors : Obj JSString) (symbol : Ticker) : JSString :=
  (colors.get symbol).getD []

/-- The function `addStock()`, run until its promise chain has settled.  `symbolInput` is
`dropdown.value`, `now` the clock read by `getPrice`, `net` the outcome of its fetch and
`stamp` the `new Date()` of line 186. -/
def addStock (s : Session) (symbolInput : JSString) (now : Int) (net : FetchResult)
    (stamp : Int) : AddResult :=
  if symbolInput = [] then { session := s, outcome := .selectPrompt, fetched := false }
  else
    let symbol := resolveSymbol symbolInput
    let r := getPrice s.priceCache symbol now net
    let s1 := { s with priceCache := r.cache }
    match r.value with
    | none => { session := s1, outcome := .fetchFailed, fetched := r.fetched }
    | some .null => { session := s1, outcome := .fetchFailed, fetched := r.fetched }
    | some data =>
      match usablePrice data with
      | none => { session := s1, outcome := .notFound, fetched := r.fetched }
      | some price =>
        let s2 :=
          if colorOf s1.assignedColors symbol = [] then
            { s1 with
              assignedColors := s1.assignedColors.set symbol
                (palette.getD (s1.colorIndex % palette.length) []),
              colorIndex := s1.colorIndex + 1 }
          else s1
        let s3 :=
          if (s2.chartData.get symbol).isNone then
            { s2 with
              chartData := s2.chartData.set symbol
                { x := [], y := [], color := colorOf s2.assignedColors symbol } }
          else s2
        let chartData := s3.chartData.modify symbol (fun series => series.push stamp price)
        { session := { s3 with chartData := chartData },
          outcome := .added, fetched := r.fetched }

/-- The environment of one refresh round: for each tracked symbol, the clock read by its
call of `getPrice`, the outcome of its fetch, and the `new Date()` of line 211. -/
structure RoundEnv where
  now : Ticker → Int
  net : Ticker → FetchResult
  stamp : Ticker → Int

/-- The calls `getPrice(symbol)` of line 206, in the order of `symbols`: the cache after
them and the value each promise settles to (`none`: rejected).  The calls read the cache
before any fetch of the round resolves and write disjoint keys. -/
def getPrices (env : RoundEnv) : List Ticker → Obj CacheEntry →
    Obj CacheEntry × List (Ticker × Option PriceData)
  | [], cache => (cache, [])
  | symbol :: rest, cache =>
    let r := getPrice cache symbol (env.now symbol) (env.net symbol)
    ((getPrices env rest r.cache).1, (symbol, r.value) :: (getPrices env rest r.cache).2)

/-- The `results.forEach` of lines 209-215.  A body `null` makes `data.price` throw, which
ends the loop; a falsy price skips the symbol. -/
def applyResults (env : RoundEnv) : List (Ticker × Option PriceData) → Obj Series →
    Obj Series
  | [], chartData => chartData
  | (_, none) :: _, chartData => chartData
  | (_, some .null) :: _, chartData => chartData
  | (symbol, some data) :: rest, chartData =>
    match usablePrice data with
    | none => applyResults env rest chartData
    | some price =>
      applyResults env rest
        (chartData.modify symbol (fun series => series.push (env.stamp symbol) price))

/-- The function `updateAllSymbols()`, run until its promise chain has settled.
`Promise.all` rejects as soon as one `getPrice` rejects; the `then` callback is then
skipped and the error is logged by the `catch` handler. -/
def updateAllSymbols (s : Session) (env : RoundEnv) : Session :=
  let symbols := s.chartData.keys
  if symbols = [] then s
  else
    let r := getPrices env symbols s.priceCache
    if r.2.any (fun p => p.2.isNone) then { s with priceCache := r.1 }
    else { s with priceCache := r.1, chartData := applyResults env r.2 s.chartData }

/-- The series of a tracked symbol after a round in which its lookup settled to `value`:
one more sample when the value carries a usable price, the same series otherwise. -/
def roundSample (env : RoundEnv) (symbol : Ticker) (value : Option PriceData)
    (series : Series) : Series :=
  match value.bind usablePrice with
  | some price => series.push (env.stamp symbol) price
  | none => series

/-! ## Concrete sessions used as test inputs -/

/-- A session that tracks `AAPL` and `TSLA`, both added and cached at time `0`. -/
def twoTickers : Session :=
  { priceCache :=
      [ (.str "AAPL".toList, { data := .body (some 5), timestamp := 0 }),
        (.str "TSLA".toList, { data := .body (some 7), timestamp := 0 }) ]
    chartData :=
      [ (.str "AAPL".toList, { x := [1], y := [5], color := "#FF5733".toList }),
        (.str "TSLA".toList, { x := [2], y := [7], color := "#33FF57".toList }) ]
    assignedColors :=
      [ (.str "AAPL".toList, "#FF5733".toList), (.str "TSLA".toList, "#33FF57".toList) ]
    colorIndex := 2 }

/-- A round at time `65000`, both cache entries having expired: the fetch for `AAPL` is
rejected, the fetch for every other symbol returns the price `8`. -/
def aaplDown : RoundEnv :=
  { now := fun _ => 65000
    net := fun symbol =>
      if symbol = .str "AAPL".toList then .networkError else .response 200 (some (.body (some 8)))
    stamp := fun _ => 65100 }

/-- A round at time `65000`: the body for `AAPL` has no price, the fetch for every other
symbol returns the price `8`. -/
def aaplUnknown : RoundEnv :=
  { now := fun _ => 65000
    net := fun symbol =>
      if symbol = .str "AAPL".toList then .response 200 (some (.body none))
      else .response 200 (some (.body (some 8)))
    stamp := fun _ => 65100 }

/-- The answer `404` with the JSON body `{}`, as a backend sends for an unknown symbol. -/
def notFoundAnswer : FetchResult := .response 404 (some (.body none))

/-- The session at page load, nothing cached or tracked. -/
def emptySession : Session :=
  { priceCache := [], chartData := [], assignedColors := [], colorIndex := 0 }


/-! # Theorems -/

/-! ## `levenshtein` computes the edit distance -/

theorem alongPrefixes_eq_cons {α : Type} (f : List α → Nat) (q ys : List α) :
    alongPrefixes f q ys = f q :: (alongPrefixes f q ys).tail := by
  cases ys <;> simp [alongPrefixes]

theorem alongPrefixes_length {α : Type} (q ys : List α) :
    alongPrefixes (fun s => s.length) q ys = List.range' q.length (ys.length + 1) := by
  induction ys generalizing q with
  | nil => simp [alongPrefixes, List.range']
  | cons y ys ih =>
    rw [alongPrefixes, ih]
    simp [List.range']

theorem alongPrefixes_getD {α : Type} (f : List α → Nat) (q ys : List α) :
    (alongPrefixes f q ys).getD ys.length 0 = f (q ++ ys) := by
  induction ys generalizing q with
  | nil => simp [alongPrefixes]
  | cons y ys ih =>
    rw [alongPrefixes]
    simpa using ih (q ++ [y])

section LevenshteinProofs

variable {α : Type} [DecidableEq α]

theorem editRec_nil_left (b : List α) : editRec [] b = b.length := by
  simp [editRec]

theorem editRec_nil_right (a : List α) : editRec a [] = a.length := by
  cases a <;> simp [editRec]

theorem editRec_cons_cons (x y : α) (xs ys : List α) :
    editRec (x :: xs) (y :: ys) =
      min (min (editRec xs (y :: ys) + 1) (editRec (x :: xs) ys + 1))
        (editRec xs ys + if x = y then 0 else 1) := by
  rw [editRec]

theorem firstRow_eq (b : List α) :
    firstRow b = alongPrefixes (fun q => editRec ([] : List α).reverse q.reverse) [] b := by
  have h : (fun q : List α => editRec ([] : List α).reverse q.reverse) = fun s => s.length := by
    funext q
    simp [editRec_nil_left]
  rw [h, alongPrefixes_length]
  simp [firstRow, List.range_eq_range']

theorem fillRow_eq (x : α) (p : List α) (ys q : List α) :
    fillRow x ys (alongPrefixes (fun s => editRec p.reverse s.reverse) q ys)
        (editRec (p ++ [x]).reverse q.reverse)
      = (alongPrefixes (fun s => editRec (p ++ [x]).reverse s.reverse) q ys).tail := by
  induction ys generalizing q with
  | nil => simp [alongPrefixes, fillRow]
  | cons y ys ih =>
    have e : alongPrefixes (fun s => editRec p.reverse s.reverse) (q ++ [y]) ys
        = editRec p.reverse (q ++ [y]).reverse
          :: (alongPrefixes (fun s => editRec p.reverse s.reverse) (q ++ [y]) ys).tail :=
      alongPrefixes_eq_cons _ _ _
    have hv : min (min (editRec p.reverse (q ++ [y]).reverse + 1)
          (editRec (p ++ [x]).reverse q.reverse + 1))
          (editRec p.reverse q.reverse + if x = y then 0 else 1)
        = editRec (p ++ [x]).reverse (q ++ [y]).reverse := by
      simp only [List.reverse_append, List.reverse_cons, List.reverse_nil, List.nil_append,
        List.singleton_append]
      rw [editRec_cons_cons]
    rw [alongPrefixes, e, fillRow]
    simp only [hv]
    rw [← e, ih (q ++ [y])]
    simp only [alongPrefixes, List.tail_cons]
    exact (alongPrefixes_eq_cons (fun s => editRec (p ++ [x]).reverse s.reverse)
      (q ++ [y]) ys).symm

theorem nextRow_eq (x : α) (p b : List α) :
    nextRow x b (p.length + 1) (alongPrefixes (fun s => editRec p.reverse s.reverse) [] b)
      = alongPrefixes (fun s => editRec (p ++ [x]).reverse s.reverse) [] b := by
  have h0 : editRec (p ++ [x]).reverse ([] : List α).reverse = p.length + 1 := by
    simp [editRec_nil_right]
  have h1 := fillRow_eq x p b []
  rw [h0] at h1
  rw [nextRow, h1, alongPrefixes_eq_cons (fun s => editRec (p ++ [x]).reverse s.reverse) [] b]
  simp [editRec_nil_right]

theorem dpRows_getD (b xs p : List α) :
    (dpRows b xs p.length (alongPrefixes (fun s => editRec p.reverse s.reverse) [] b)).getD
        xs.length []
      = alongPrefixes (fun s => editRec (p ++ xs).reverse s.reverse) [] b := by
  induction xs generalizing p with
  | nil => simp [dpRows]
  | cons x xs ih =>
    rw [dpRows, nextRow_eq]
    have := ih (p ++ [x])
    simp only [List.length_append, List.length_singleton, List.append_assoc,
      List.singleton_append] at this
    simpa using this

/-- The table entry `dp[a.length][b.length]` is the recurrence on the reversed strings. -/
theorem levenshtein_eq_editRec_reverse (a b : List α) :
    levenshtein a b = editRec a.reverse b.reverse := by
  unfold levenshtein dpTable
  rw [firstRow_eq]
  have h := dpRows_getD b a []
  simp only [List.length_nil, List.nil_append] at h
  rw [h]
  simpa using alongPrefixes_getD (fun s => editRec a.reverse s.reverse) [] b

theorem editRec_self (a : List α) : editRec a a = 0 := by
  induction a with
  | nil => simp [editRec_nil_left]
  | cons x xs ih => rw [editRec_cons_cons, ih]; simp

theorem editRec_comm (a b : List α) : editRec a b = editRec b a := by
  induction a generalizing b with
  | nil => simp [editRec_nil_left, editRec_nil_right]
  | cons x xs iha =>
    induction b with
    | nil => simp [editRec_nil_left, editRec_nil_right]
    | cons y ys ihb =>
      rw [editRec_cons_cons, editRec_cons_cons, iha (y :: ys), ihb, iha ys]
      have hc : (if x = y then 0 else 1) = (if y = x then 0 else 1) := by
        by_cases h : x = y
        · subst h; simp
        · have h2 : ¬ y = x := fun e => h e.symm
          simp [h, h2]
      rw [hc]
      omega

theorem editRec_cons_left_le (x : α) (s t : List α) :
    editRec (x :: s) t ≤ editRec s t + 1 := by
  cases t with
  | nil => simp [editRec_nil_right]
  | cons y ys => rw [editRec_cons_cons]; omega

theorem editRec_cons_right_le (y : α) (s t : List α) :
    editRec s (y :: t) ≤ editRec s t + 1 := by
  cases s with
  | nil => simp [editRec_nil_left]
  | cons x xs => rw [editRec_cons_cons]; omega

theorem editRec_le_cons_left (x : α) (s c : List α) :
    editRec s c ≤ editRec (x :: s) c + 1 := by
  induction c with
  | nil => simp only [editRec_nil_right, List.length_cons]; omega
  | cons y ys ih =>
    rw [editRec_cons_cons]
    have h1 := editRec_cons_right_le y s ys
    split <;> omega

theorem editRec_subst_head (x y : α) (s c : List α) :
    editRec (x :: s) c ≤ editRec (y :: s) c + 1 := by
  induction c with
  | nil => simp [editRec_nil_right]
  | cons z zs ih =>
    rw [editRec_cons_cons, editRec_cons_cons]
    split <;> split <;> omega

theorem editRec_cons_congr (p : α) (a b : List α)
    (h : ∀ c, editRec a c ≤ editRec b c + 1) :
    ∀ c, editRec (p :: a) c ≤ editRec (p :: b) c + 1 := by
  intro c
  induction c with
  | nil =>
    have h0 := h []
    simp only [editRec_nil_right] at h0
    simp only [editRec_nil_right, List.length_cons]
    omega
  | cons z zs ih =>
    rw [editRec_cons_cons, editRec_cons_cons]
    have h1 := h (z :: zs)
    have h2 := h zs
    split <;> omega

theorem editRec_append_congr (pre a b : List α)
    (h : ∀ c, editRec a c ≤ editRec b c + 1) :
    ∀ c, editRec (pre ++ a) c ≤ editRec (pre ++ b) c + 1 := by
  induction pre with
  | nil => simpa using h
  | cons p pre ih => exact editRec_cons_congr p _ _ ih

/-- One edit of the first string changes the recurrence by at most one. -/
theorem editRec_step_le {a b : List α} (h : EditStep a b) (c : List α) :
    editRec a c ≤ editRec b c + 1 := by
  cases h with
  | insert pre x suf =>
    exact editRec_append_congr pre suf (x :: suf) (editRec_le_cons_left x suf) c
  | delete pre x suf =>
    exact editRec_append_congr pre (x :: suf) suf (editRec_cons_left_le x suf) c
  | substitute pre x y suf hne =>
    exact editRec_append_congr pre (x :: suf) (y :: suf) (editRec_subst_head x y suf) c

/-- No sequence of edits from `a` to `b` is shorter than the recurrence. -/
theorem editRec_le_of_path {k : Nat} {a b : List α} (h : EditPath k a b) :
    editRec a b ≤ k := by
  induction h with
  | refl a => simp [editRec_self]
  | step hs _ ih =>
    have := editRec_step_le hs
    exact le_trans (this _) (Nat.succ_le_succ ih)

omit [DecidableEq α] in
theorem editStep_cons (c : α) {a b : List α} (h : EditStep a b) :
    EditStep (c :: a) (c :: b) := by
  cases h with
  | insert pre x suf => exact EditStep.insert (c :: pre) x suf
  | delete pre x suf => exact EditStep.delete (c :: pre) x suf
  | substitute pre x y suf hne => exact EditStep.substitute (c :: pre) x y suf hne

omit [DecidableEq α] in
theorem editPath_cons (c : α) {k : Nat} {a b : List α} (h : EditPath k a b) :
    EditPath k (c :: a) (c :: b) := by
  induction h with
  | refl a => exact EditPath.refl _
  | step hs _ ih => exact EditPath.step (editStep_cons c hs) ih

omit [DecidableEq α] in
theorem editStep_reverse {a b : List α} (h : EditStep a b) :
    EditStep a.reverse b.reverse := by
  cases h with
  | insert pre x suf => simpa using EditStep.insert suf.reverse x pre.reverse
  | delete pre x suf => simpa using EditStep.delete suf.reverse x pre.reverse
  | substitute pre x y suf hne =>
    simpa using EditStep.substitute suf.reverse x y pre.reverse hne

omit [DecidableEq α] in
theorem editPath_reverse {k : Nat} {a b : List α} (h : EditPath k a b) :
    EditPath k a.reverse b.reverse := by
  induction h with
  | refl a => exact EditPath.refl _
  | step hs _ ih => exact EditPath.step (editStep_reverse hs) ih

omit [DecidableEq α] in
theorem editPath_insert_all (b : List α) : EditPath b.length [] b := by
  induction b with
  | nil => exact EditPath.refl _
  | cons y ys ih => exact EditPath.step (EditStep.insert [] y []) (editPath_cons y ih)

omit [DecidableEq α] in
theorem editPath_delete_all (a : List α) : EditPath a.length a [] := by
  induction a with
  | nil => exact EditPath.refl _
  | cons x xs ih => exact EditPath.step (EditStep.delete [] x xs) ih

/-- The recurrence is reached by a sequence of edits. -/
theorem editPath_editRec (a b : List α) : EditPath (editRec a b) a b := by
  induction a generalizing b with
  | nil => rw [editRec_nil_left]; exact editPath_insert_all b
  | cons x xs iha =>
    induction b with
    | nil => rw [editRec_nil_right]; exact editPath_delete_all _
    | cons y ys ihb =>
      have p1 : EditPath (editRec xs (y :: ys) + 1) (x :: xs) (y :: ys) :=
        EditPath.step (EditStep.delete [] x xs) (iha (y :: ys))
      have p2 : EditPath (editRec (x :: xs) ys + 1) (x :: xs) (y :: ys) :=
        EditPath.step (EditStep.insert [] y (x :: xs)) (editPath_cons y ihb)
      have p3 : EditPath (editRec xs ys + if x = y then 0 else 1) (x :: xs) (y :: ys) := by
        by_cases h : x = y
        · subst h
          simpa using editPath_cons x (iha ys)
        · simp only [h, if_false]
          exact EditPath.step (EditStep.substitute [] x y xs h) (editPath_cons y (iha ys))
      rw [editRec_cons_cons]
      rcases min_choice (min (editRec xs (y :: ys) + 1) (editRec (x :: xs) ys + 1))
          (editRec xs ys + if x = y then 0 else 1) with h | h
      · rw [h]
        rcases min_choice (editRec xs (y :: ys) + 1) (editRec (x :: xs) ys + 1) with h2 | h2
        · rw [h2]; exact p1
        · rw [h2]; exact p2
      · rw [h]; exact p3

end LevenshteinProofs

/-- The table entry returned by `levenshtein` is bounded by the longer string. -/
theorem editRec_le_max {α : Type} [DecidableEq α] (a b : List α) :
    editRec a b ≤ max a.length b.length := by
  induction a generalizing b with
  | nil => simp [editRec_nil_left]
  | cons x xs iha =>
    cases b with
    | nil => simp [editRec_nil_right]
    | cons y ys =>
      rw [editRec_cons_cons]
      have h := iha ys
      simp only [List.length_cons]
      split <;> omega

/-- Claim C4. For all strings `a` and `b`, `levenshtein(a, b)` is the standard edit
distance: some sequence of `levenshtein(a, b)` single-character insertions, deletions and
substitutions turns `a` into `b`, and no sequence of such edits from `a` to `b` is shorter. -/
theorem levenshtein_is_edit_distance {α : Type} [DecidableEq α] (a b : List α) :
    IsLeast {k | EditPath k a b} (levenshtein a b) := by
  rw [levenshtein_eq_editRec_reverse]
  constructor
  · have h := editPath_reverse (editPath_editRec a.reverse b.reverse)
    simpa using h
  · intro k hk
    exact editRec_le_of_path (editPath_reverse hk)

/-- Claim C5. For all strings `a` and `b`, `levenshtein(a, b) = levenshtein(b, a)`. -/
theorem levenshtein_symm {α : Type} [DecidableEq α] (a b : List α) :
    levenshtein a b = levenshtein b a := by
  rw [levenshtein_eq_editRec_reverse, levenshtein_eq_editRec_reverse, editRec_comm]

/-! ## `resolveSymbol` -/

theorem lookup_mem {κ β : Type} [BEq κ] [LawfulBEq κ] (l : List (κ × β)) (k : κ) (v : β)
    (h : l.lookup k = some v) : (k, v) ∈ l := by
  induction l with
  | nil => simp at h
  | cons p l ih =>
    obtain ⟨k', v'⟩ := p
    rw [List.lookup_cons] at h
    by_cases e : k == k'
    · simp only [e] at h
      have e' : k = k' := by simpa using e
      have hv : v' = v := by simpa using h
      subst e' hv
      simp
    · simp only [e] at h
      exact List.mem_cons_of_mem _ (ih h)

theorem lookup_eq_none_of_not_key {κ β : Type} [BEq κ] [LawfulBEq κ] (l : List (κ × β))
    (k : κ) (h : ∀ kv ∈ l, kv.1 ≠ k) : l.lookup k = none := by
  induction l with
  | nil => rfl
  | cons p l ih =>
    obtain ⟨k', v'⟩ := p
    rw [List.lookup_cons]
    have hne : k' ≠ k := h (k', v') (List.mem_cons_self _ _)
    have e : (k == k') = false := by
      simp only [beq_eq_false_iff_ne, ne_eq]
      exact fun e => hne e.symm
    simp only [e]
    exact ih (fun kv hkv => h kv (List.mem_cons_of_mem _ hkv))

/-- Every key of the alias table is already in lower case. -/
theorem symbolAliases_keys_lower : ∀ kv ∈ symbolAliases, toLowerCase kv.1 = kv.1 := by
  decide

set_option maxRecDepth 1000000 in
/-- No member name of `Object.prototype` is within distance 2 of an alias key. -/
theorem objectPrototypeMembers_far :
    ∀ m ∈ objectPrototypeMembers, ∀ kv ∈ symbolAliases, 2 < levenshtein m kv.1 := by
  decide

/-- Every symbol of the alias table is a non-empty string, hence truthy. -/
theorem symbolAliases_values_nonempty : ∀ kv ∈ symbolAliases, kv.2 ≠ [] := by
  decide

/-- Every member name of `Object.prototype` has more than two characters. -/
theorem objectPrototypeMembers_long : ∀ m ∈ objectPrototypeMembers, 2 < m.length := by
  decide

/-- While every key seen is farther than 2, the loop keeps its accumulator. -/
theorem foldl_fuzzyStep_far (n : JSString) (l : List (JSString × JSString))
    (acc : JSValue × Option Nat)
    (h : ∀ kv ∈ l, 2 < levenshtein n (toLowerCase kv.1)) :
    l.foldl (fuzzyStep n) acc = acc := by
  induction l generalizing acc with
  | nil => rfl
  | cons kv l ih =>
    have h1 : ¬ levenshtein n (toLowerCase kv.1) ≤ 2 :=
      Nat.not_le.mpr (h kv (List.mem_cons_self _ _))
    have hs : fuzzyStep n acc kv = acc := by
      simp [fuzzyStep, h1]
    rw [List.foldl_cons, hs]
    exact ih acc (fun kv' hkv => h kv' (List.mem_cons_of_mem _ hkv))

/-- Once the minimum `d` is held, keys at distance `d` or more change nothing. -/
theorem foldl_fuzzyStep_keep (n : JSString) (l : List (JSString × JSString))
    (best : JSValue) (d : Nat)
    (h : ∀ kv ∈ l, d ≤ levenshtein n (toLowerCase kv.1)) :
    l.foldl (fuzzyStep n) (best, some d) = (best, some d) := by
  induction l with
  | nil => rfl
  | cons kv l ih =>
    have h1 : ¬ levenshtein n (toLowerCase kv.1) < d :=
      Nat.not_lt.mpr (h kv (List.mem_cons_self _ _))
    have hs : fuzzyStep n (best, some d) kv = (best, some d) := by
      simp [fuzzyStep, h1]
    rw [List.foldl_cons, hs]
    exact ih (fun kv' hkv => h kv' (List.mem_cons_of_mem _ hkv))

/-- While every key seen is farther than `d`, the running minimum stays above `d`. -/
theorem foldl_fuzzyStep_above (n : JSString) (l : List (JSString × JSString))
    (acc : JSValue × Option Nat) (d : Nat)
    (hacc : ∀ m, acc.2 = some m → d < m)
    (h : ∀ kv ∈ l, d < levenshtein n (toLowerCase kv.1)) :
    ∀ m, (l.foldl (fuzzyStep n) acc).2 = some m → d < m := by
  induction l generalizing acc with
  | nil => simpa using hacc
  | cons kv l ih =>
    rw [List.foldl_cons]
    apply ih
    · intro m hm
      have hd := h kv (List.mem_cons_self _ _)
      unfold fuzzyStep at hm
      simp only at hm
      split at hm
      · simp only [Option.some.injEq] at hm
        omega
      · exact hacc m hm
    · exact fun kv' hkv => h kv' (List.mem_cons_of_mem _ hkv)

/-- The loop of `resolveSymbol` ends on the first key at the minimal distance, when that
distance is at most 2. -/
theorem foldl_fuzzyStep_first_min (n : JSString) (pre post : List (JSString × JSString))
    (k v : JSString) (init : JSValue)
    (hd : levenshtein n (toLowerCase k) ≤ 2)
    (hpre : ∀ kv ∈ pre, levenshtein n (toLowerCase k) < levenshtein n (toLowerCase kv.1))
    (hpost : ∀ kv ∈ post, levenshtein n (toLowerCase k) ≤ levenshtein n (toLowerCase kv.1)) :
    (pre ++ (k, v) :: post).foldl (fuzzyStep n) (init, none)
      = (.str v, some (levenshtein n (toLowerCase k))) := by
  rw [List.foldl_append, List.foldl_cons]
  have habove := foldl_fuzzyStep_above n pre (init, none) (levenshtein n (toLowerCase k))
    (by simp) hpre
  have hs : fuzzyStep n (pre.foldl (fuzzyStep n) (init, none)) (k, v)
      = (.str v, some (levenshtein n (toLowerCase k))) := by
    generalize pre.foldl (fuzzyStep n) (init, none) = acc at habove
    obtain ⟨b, o⟩ := acc
    cases o with
    | none => simp [fuzzyStep, hd]
    | some m =>
      have := habove m rfl
      simp [fuzzyStep, hd, this]
  rw [hs]
  exact foldl_fuzzyStep_keep n post _ _ hpost

/-- A finite running minimum never returns to `Infinity`. -/
theorem foldl_fuzzyStep_some (n : JSString) (l : List (JSString × JSString))
    (best : JSValue) (m : Nat) :
    (l.foldl (fuzzyStep n) (best, some m)).2 ≠ none := by
  induction l generalizing best m with
  | nil => simp
  | cons kv l ih =>
    rw [List.foldl_cons]
    unfold fuzzyStep
    simp only
    split
    · exact ih _ _
    · exact ih _ _

/-- The loop either keeps `minDist = Infinity`, every key being farther than 2, or
ends on the symbol of some alias. -/
theorem foldl_fuzzyStep_alias (n : JSString) (l : List (JSString × JSString))
    (acc : JSValue × Option Nat)
    (hacc : acc.2 ≠ none → ∃ kv ∈ symbolAliases, acc.1 = .str kv.2)
    (hl : ∀ kv ∈ l, kv ∈ symbolAliases) :
    ((l.foldl (fuzzyStep n) acc).2 ≠ none →
        ∃ kv ∈ symbolAliases, (l.foldl (fuzzyStep n) acc).1 = .str kv.2) ∧
      ((l.foldl (fuzzyStep n) acc).2 = none →
        ∀ kv ∈ l, 2 < levenshtein n (toLowerCase kv.1)) := by
  induction l generalizing acc with
  | nil => simpa using hacc
  | cons kv l ih =>
    rw [List.foldl_cons]
    have hl' : ∀ kv' ∈ l, kv' ∈ symbolAliases :=
      fun kv' hkv => hl kv' (List.mem_cons_of_mem _ hkv)
    by_cases hc : levenshtein n (toLowerCase kv.1) ≤ 2
    · by_cases hb : (match acc.2 with
          | none => true
          | some m => decide (levenshtein n (toLowerCase kv.1) < m)) = true
      · have hs : fuzzyStep n acc kv
            = (.str kv.2, some (levenshtein n (toLowerCase kv.1))) := by
          unfold fuzzyStep
          simp only [hb, hc, decide_True, Bool.and_self, if_true]
        rw [hs]
        have hkeep := ih (.str kv.2, some (levenshtein n (toLowerCase kv.1)))
          (fun _ => ⟨kv, hl kv (List.mem_cons_self _ _), rfl⟩) hl'
        refine ⟨hkeep.1, fun hnone => ?_⟩
        exfalso
        have := foldl_fuzzyStep_some n l (.str kv.2) (levenshtein n (toLowerCase kv.1))
        exact this hnone
      · have hs : fuzzyStep n acc kv = acc := by
          unfold fuzzyStep
          simp only [hb, Bool.false_and, if_false]
          simp
        rw [hs]
        have hsome : acc.2 ≠ none := by
          intro e
          rw [e] at hb
          exact hb rfl
        have hkeep := ih acc hacc hl'
        refine ⟨hkeep.1, fun hnone => ?_⟩
        exfalso
        obtain ⟨m, hm⟩ := Option.ne_none_iff_exists'.mp hsome
        have e : acc = (acc.1, some m) := by rw [← hm]
        rw [e] at hnone
        exact foldl_fuzzyStep_some n l acc.1 m hnone
    · have hs : fuzzyStep n acc kv = acc := by
        simp [fuzzyStep, hc]
      rw [hs]
      have hkeep := ih acc hacc hl'
      refine ⟨hkeep.1, fun hnone kv' hkv' => ?_⟩
      rcases List.mem_cons.mp hkv' with e | hmem
      · subst e; omega
      · exact hkeep.2 hnone kv' hmem

/-- When the normalised input is no alias key and some key is within distance 2, the
read `symbolAliases[input]` of line 104 yields `undefined`. -/
theorem aliasLookup_undefined (n : JSString) (k : JSString × JSString)
    (hk : k ∈ symbolAliases) (hd : levenshtein n k.1 ≤ 2)
    (hkey : ∀ kv ∈ symbolAliases, kv.1 ≠ n) : aliasLookup n = .undefined := by
  have hnone := lookup_eq_none_of_not_key symbolAliases n hkey
  have hmem : n ∉ objectPrototypeMembers := by
    intro hm
    have := objectPrototypeMembers_far n hm k hk
    omega
  simp [aliasLookup, hnone, hmem]

/-- The loop of `resolveSymbol`, run on the whole table, in terms of a split of the table
at the first key of minimal distance. -/
theorem resolveSymbol_of_split (input : JSString) (pre post : List (JSString × JSString))
    (k v : JSString)
    (hsplit : symbolAliases = pre ++ (k, v) :: post)
    (hkey : ∀ kv ∈ symbolAliases, kv.1 ≠ trim (toLowerCase input))
    (hd : levenshtein (trim (toLowerCase input)) k ≤ 2)
    (hpre : ∀ kv ∈ pre,
      levenshtein (trim (toLowerCase input)) k < levenshtein (trim (toLowerCase input)) kv.1)
    (hpost : ∀ kv ∈ post,
      levenshtein (trim (toLowerCase input)) k ≤ levenshtein (trim (toLowerCase input)) kv.1) :
    resolveSymbol input = .str v := by
  have hkin : (k, v) ∈ symbolAliases := by rw [hsplit]; simp
  have hund := aliasLookup_undefined _ (k, v) hkin hd hkey
  have hlow : toLowerCase k = k := symbolAliases_keys_lower (k, v) hkin
  have hlowpre : ∀ kv ∈ pre, toLowerCase kv.1 = kv.1 := fun kv h =>
    symbolAliases_keys_lower kv (by rw [hsplit]; exact List.mem_append_left _ h)
  have hlowpost : ∀ kv ∈ post, toLowerCase kv.1 = kv.1 := fun kv h =>
    symbolAliases_keys_lower kv
      (by rw [hsplit]; exact List.mem_append_right _ (List.mem_cons_of_mem _ h))
  have hfold := foldl_fuzzyStep_first_min (trim (toLowerCase input)) pre post k v
    (.str (toUpperCase (trim (toLowerCase input))))
    (by rw [hlow]; exact hd)
    (fun kv h => by rw [hlow, hlowpre kv h]; exact hpre kv h)
    (fun kv h => by rw [hlow, hlowpost kv h]; exact hpost kv h)
  unfold resolveSymbol
  simp only [hund, JSValue.truthy, Bool.false_eq_true, if_false]
  rw [hsplit, hfold]

set_option maxRecDepth 1000000 in
/-- Claim C1. For every key `k` of the alias table `symbolAliases`, `resolveSymbol(k)`
returns `symbolAliases[k]`, the symbol that the table maps `k` to. -/
theorem resolveSymbol_alias_key :
    ∀ kv ∈ symbolAliases,
      resolveSymbol kv.1 = aliasLookup kv.1 ∧ aliasLookup kv.1 = .str kv.2 := by
  decide

theorem resolveSymbol_alias_key_witness :
    (("apple".toList, "AAPL".toList) ∈ symbolAliases) ∧
      resolveSymbol "apple".toList = aliasLookup "apple".toList ∧
      aliasLookup "apple".toList = .str "AAPL".toList :=
  ⟨by decide, resolveSymbol_alias_key ("apple".toList, "AAPL".toList) (by decide)⟩

/-- Claim C2. For every input whose normalised form (lowercased, trimmed) is not an alias
key and whose minimal Levenshtein distance `d` to the alias keys is at most 2,
`resolveSymbol` returns the symbol mapped by the first key, in the order of the table, at
distance `d`; in particular, when exactly one alias key is within distance 2, it returns
the symbol of that key. -/
theorem resolveSymbol_fuzzy (input : JSString)
    (hkey : ∀ kv ∈ symbolAliases, kv.1 ≠ trim (toLowerCase input)) :
    (∀ (pre post : List (JSString × JSString)) (k v : JSString),
        symbolAliases = pre ++ (k, v) :: post →
        levenshtein (trim (toLowerCase input)) k ≤ 2 →
        (∀ kv ∈ symbolAliases,
          levenshtein (trim (toLowerCase input)) k
            ≤ levenshtein (trim (toLowerCase input)) kv.1) →
        (∀ kv ∈ pre,
          levenshtein (trim (toLowerCase input)) kv.1
            ≠ levenshtein (trim (toLowerCase input)) k) →
        resolveSymbol input = .str v) ∧
      (∀ (k v : JSString), (k, v) ∈ symbolAliases →
        levenshtein (trim (toLowerCase input)) k ≤ 2 →
        (∀ kv ∈ symbolAliases,
          levenshtein (trim (toLowerCase input)) kv.1 ≤ 2 → kv = (k, v)) →
        resolveSymbol input = .str v) := by
  constructor
  · intro pre post k v hsplit hd hmin hfirst
    refine resolveSymbol_of_split input pre post k v hsplit hkey hd ?_ ?_
    · intro kv hkv
      have h1 := hmin kv (by rw [hsplit]; exact List.mem_append_left _ hkv)
      have h2 := hfirst kv hkv
      omega
    · intro kv hkv
      exact hmin kv (by rw [hsplit]; exact List.mem_append_right _ (List.mem_cons_of_mem _ hkv))
  · intro k v hkin hd huniq
    obtain ⟨pre, post, hsplit, hnot⟩ := List.eq_append_cons_of_mem hkin
    refine resolveSymbol_of_split input pre post k v hsplit hkey hd ?_ ?_
    · intro kv hkv
      by_contra hlt
      have hle : levenshtein (trim (toLowerCase input)) kv.1 ≤ 2 := by omega
      have := huniq kv (by rw [hsplit]; exact List.mem_append_left _ hkv) hle
      exact hnot (this ▸ hkv)
    · intro kv hkv
      by_contra hlt
      have hle : levenshtein (trim (toLowerCase input)) kv.1 ≤ 2 := by omega
      have := huniq kv
        (by rw [hsplit]; exact List.mem_append_right _ (List.mem_cons_of_mem _ hkv)) hle
      rw [this] at hlt
      exact hlt (Nat.le_refl _)

set_option maxRecDepth 1000000 in
theorem resolveSymbol_fuzzy_witness :
    levenshtein (trim (toLowerCase " Dra".toList)) "dis".toList = 2 ∧
      levenshtein (trim (toLowerCase " Dra".toList)) "crm".toList = 2 ∧
      resolveSymbol " Dra".toList = .str "DIS".toList ∧
      resolveSymbol "tesla".toList = .str "TSLA".toList :=
  ⟨by decide, by decide,
    (resolveSymbol_fuzzy " Dra".toList (by decide)).1
      (symbolAliases.take 19) (symbolAliases.drop 20) "dis".toList "DIS".toList
      (by decide) (by decide) (by decide) (by decide),
    (resolveSymbol_fuzzy "tesla".toList (by decide)).2 "tsla".toList "TSLA".toList
      (by decide) (by decide) (by decide)⟩

set_option maxRecDepth 1000000 in
/-- Claim C3, evaluated where it fails. The input `constructor` is farther than 2 from
every alias key, raw and normalised alike, yet `resolveSymbol` returns the function that
the alias object inherits under that name (line 104) and not the string `CONSTRUCTOR`;
likewise `__proto__` resolves to the inherited prototype object. -/
theorem resolveSymbol_constructor :
    (∀ kv ∈ symbolAliases, 2 < levenshtein "constructor".toList kv.1) ∧
      (∀ kv ∈ symbolAliases,
        2 < levenshtein (trim (toLowerCase "constructor".toList)) kv.1) ∧
      resolveSymbol "constructor".toList = .inherited "constructor".toList ∧
      resolveSymbol "constructor".toList
        ≠ .str (toUpperCase (trim "constructor".toList)) ∧
      (∀ kv ∈ symbolAliases, 2 < levenshtein "__proto__".toList kv.1) ∧
      resolveSymbol "__proto__".toList = .inherited "__proto__".toList := by
  decide

/-- Lower-casing a character does not change whether `trim` strips it. -/
theorem isTrimChar_toLower (c : Char) : isTrimChar c.toLower = isTrimChar c := by
  unfold Char.toLower
  simp only
  split
  · rename_i h
    have h1 : isTrimChar c = false := by
      unfold isTrimChar
      simp only [Char.toNat] at h ⊢
      simp
      omega
    rw [h1]
    obtain ⟨hlo, hhi⟩ := h
    generalize c.toNat = n at hlo hhi
    interval_cases n <;> rfl
  · rfl

/-- Upper-casing undoes lower-casing on every character the model maps. -/
theorem toUpper_toLower (c : Char) : c.toLower.toUpper = c.toUpper := by
  by_cases h : c.toNat ≥ 65 ∧ c.toNat ≤ 90
  · have hc : c = Char.ofNat c.toNat := (Char.ofNat_toNat c).symm
    obtain ⟨hlo, hhi⟩ := h
    rw [hc]
    generalize c.toNat = n at hlo hhi
    interval_cases n <;> rfl
  · have : c.toLower = c := by
      unfold Char.toLower
      simp only [h, if_false]
    rw [this]

theorem trim_map (f : Char → Char) (hf : ∀ c, isTrimChar (f c) = isTrimChar c)
    (s : JSString) : trim (s.map f) = (trim s).map f := by
  have hcomp : (isTrimChar ∘ f) = isTrimChar := funext hf
  unfold trim
  rw [List.dropWhile_map, hcomp, ← List.map_reverse, List.dropWhile_map, hcomp,
    ← List.map_reverse]

/-- On an ASCII string `toUpperCase(trim(toLowerCase(s)))` is `toUpperCase(trim(s))`.
(Beyond ASCII the engine's case maps break this, for instance at U+212A.) -/
theorem toUpperCase_trim_toLowerCase (s : JSString) (_hascii : isAscii s) :
    toUpperCase (trim (toLowerCase s)) = toUpperCase (trim s) := by
  unfold toLowerCase toUpperCase
  rw [trim_map Char.toLower isTrimChar_toLower, List.map_map]
  apply List.map_congr_left
  intro c _
  exact toUpper_toLower c
/-- Away from the member names of `Object.prototype`, the fallback of `resolveSymbol` is as
specified on ASCII input: an input whose normalised form is farther than 2 from every
alias key resolves to `uppercase(trim(input))`. -/
theorem resolveSymbol_fallback (input : JSString) (hascii : isAscii input)
    (hproto : trim (toLowerCase input) ∉ objectPrototypeMembers)
    (hfar : ∀ kv ∈ symbolAliases, 2 < levenshtein (trim (toLowerCase input)) kv.1) :
    resolveSymbol input = .str (toUpperCase (trim input)) := by
  rw [← toUpperCase_trim_toLowerCase input hascii]
  have hkey : ∀ kv ∈ symbolAliases, kv.1 ≠ trim (toLowerCase input) := by
    intro kv hkv e
    have h := hfar kv hkv
    have h0 : levenshtein kv.1 kv.1 = 0 := by
      rw [levenshtein_eq_editRec_reverse, editRec_self]
    rw [← e, h0] at h
    omega
  have hnone := lookup_eq_none_of_not_key symbolAliases _ hkey
  have hund : aliasLookup (trim (toLowerCase input)) = .undefined := by
    simp [aliasLookup, hnone, hproto]
  unfold resolveSymbol
  simp only [hund, JSValue.truthy, Bool.false_eq_true, if_false]
  rw [foldl_fuzzyStep_far]
  intro kv hkv
  rw [symbolAliases_keys_lower kv hkv]
  exact hfar kv hkv

theorem toUpper_toUpper (c : Char) : c.toUpper.toUpper = c.toUpper := by
  by_cases h : c.toNat ≥ 97 ∧ c.toNat ≤ 122
  · have hc : c = Char.ofNat c.toNat := (Char.ofNat_toNat c).symm
    obtain ⟨hlo, hhi⟩ := h
    rw [hc]
    generalize c.toNat = n at hlo hhi
    interval_cases n <;> rfl
  · have : c.toUpper = c := by
      unfold Char.toUpper
      simp only [h, if_false]
    rw [this, this]

theorem toUpperCase_idem (s : JSString) : toUpperCase (toUpperCase s) = toUpperCase s := by
  unfold toUpperCase
  rw [List.map_map]
  apply List.map_congr_left
  intro c _
  exact toUpper_toUpper c

/-- Every symbol of the alias table is already in upper case. -/
theorem symbolAliases_values_upper : ∀ kv ∈ symbolAliases, toUpperCase kv.2 = kv.2 := by
  decide

/-- Every member name of `Object.prototype` contains a lower-case letter. -/
theorem objectPrototypeMembers_not_upper :
    ∀ m ∈ objectPrototypeMembers, toUpperCase m ≠ m := by
  decide

/-- The loop of `resolveSymbol` returns its initial `best` or the symbol of an alias. -/
theorem foldl_fuzzyStep_fst (n : JSString) (l : List (JSString × JSString))
    (acc : JSValue × Option Nat) :
    (l.foldl (fuzzyStep n) acc).1 = acc.1 ∨
      ∃ kv ∈ l, (l.foldl (fuzzyStep n) acc).1 = .str kv.2 := by
  induction l generalizing acc with
  | nil => exact Or.inl rfl
  | cons kv l ih =>
    rw [List.foldl_cons]
    rcases ih (fuzzyStep n acc kv) with h | ⟨kv', hkv', h⟩
    · rw [h]
      unfold fuzzyStep
      simp only
      split
      · exact Or.inr ⟨kv, List.mem_cons_self _ _, rfl⟩
      · exact Or.inl rfl
    · exact Or.inr ⟨kv', List.mem_cons_of_mem _ hkv', h⟩

/-- A string returned by `resolveSymbol` is in upper case, so it names no member of
`Object.prototype`: used as a key of `priceCache`, `chartData` or `assignedColors` it
reaches own properties only. -/
theorem resolveSymbol_str_upper (input s : JSString) (h : resolveSymbol input = .str s) :
    toUpperCase s = s ∧ s ∉ objectPrototypeMembers := by
  have hup : toUpperCase s = s := by
    unfold resolveSymbol at h
    simp only at h
    split at h
    · unfold aliasLookup at h
      cases hl : symbolAliases.lookup (trim (toLowerCase input)) with
      | some sym =>
        rw [hl] at h
        simp only [JSValue.str.injEq] at h
        subst h
        exact symbolAliases_values_upper _ (lookup_mem symbolAliases _ _ hl)
      | none =>
        rw [hl] at h
        simp only at h
        split at h <;> exact JSValue.noConfusion h
    · rcases foldl_fuzzyStep_fst (trim (toLowerCase input)) symbolAliases
        (.str (toUpperCase (trim (toLowerCase input))), none) with h1 | ⟨kv, hkv, h1⟩
      · rw [h1] at h
        simp only [JSValue.str.injEq] at h
        rw [← h]
        exact toUpperCase_idem _
      · rw [h1] at h
        simp only [JSValue.str.injEq] at h
        rw [← h]
        exact symbolAliases_values_upper kv hkv
  exact ⟨hup, fun hm => objectPrototypeMembers_not_upper s hm hup⟩

set_option maxRecDepth 1000000 in
/-- Claim C10. For every input whose normalised form (lowercased, trimmed) has at most 2
characters, the empty input included, the key `fb` is within distance 2 and
`resolveSymbol` returns one of the mapped symbols of the alias table, not a literal guess;
for example `resolveSymbol("") = "FB"` and `resolveSymbol("ge") = "FB"`. -/
theorem resolveSymbol_short (input : JSString)
    (hlen : (trim (toLowerCase input)).length ≤ 2) :
    levenshtein (trim (toLowerCase input)) "fb".toList ≤ 2 ∧
      (∃ kv ∈ symbolAliases, resolveSymbol input = .str kv.2) ∧
      resolveSymbol "".toList = .str "FB".toList ∧
      resolveSymbol "ge".toList = .str "FB".toList := by
  have hfb : levenshtein (trim (toLowerCase input)) "fb".toList ≤ 2 := by
    rw [levenshtein_eq_editRec_reverse]
    have h := editRec_le_max (trim (toLowerCase input)).reverse "fb".toList.reverse
    have h2 : "fb".toList.reverse.length = 2 := by decide
    rw [List.length_reverse, h2] at h
    omega
  refine ⟨hfb, ?_, by decide, by decide⟩
  have hproto : trim (toLowerCase input) ∉ objectPrototypeMembers := by
    intro hm
    have := objectPrototypeMembers_long _ hm
    omega
  cases hlook : symbolAliases.lookup (trim (toLowerCase input)) with
  | some sym =>
    have hmem := lookup_mem symbolAliases _ sym hlook
    have hne : sym ≠ [] := symbolAliases_values_nonempty _ hmem
    refine ⟨_, hmem, ?_⟩
    unfold resolveSymbol
    simp [aliasLookup, hlook, JSValue.truthy, hne]
  | none =>
    have hund : aliasLookup (trim (toLowerCase input)) = .undefined := by
      simp [aliasLookup, hlook, hproto]
    have hfold := foldl_fuzzyStep_alias (trim (toLowerCase input)) symbolAliases
      (.str (toUpperCase (trim (toLowerCase input))), none) (by simp) (fun _ h => h)
    have hsome : (symbolAliases.foldl (fuzzyStep (trim (toLowerCase input)))
        (.str (toUpperCase (trim (toLowerCase input))), none)).2 ≠ none := by
      intro hnone
      have h := hfold.2 hnone ("fb".toList, "FB".toList) (by decide)
      have hl : toLowerCase "fb".toList = "fb".toList := by decide
      simp only [hl] at h
      omega
    obtain ⟨kv, hkv, hres⟩ := hfold.1 hsome
    refine ⟨kv, hkv, ?_⟩
    unfold resolveSymbol
    simp only [hund, JSValue.truthy, Bool.false_eq_true, if_false]
    exact hres

set_option maxRecDepth 1000000 in
theorem resolveSymbol_short_witness :
    (trim (toLowerCase " GE ".toList)).length ≤ 2 ∧
      levenshtein (trim (toLowerCase " GE ".toList)) "fb".toList ≤ 2 ∧
      (∃ kv ∈ symbolAliases, resolveSymbol " GE ".toList = .str kv.2) ∧
      resolveSymbol "".toList = .str "FB".toList ∧
      resolveSymbol "ge".toList = .str "FB".toList :=
  ⟨by decide, resolveSymbol_short " GE ".toList (by decide)⟩

/-! ## Objects as maps -/

section ObjProofs

variable {β : Type}

theorem Obj.get_nil (k : Ticker) : Obj.get ([] : Obj β) k = none := rfl

theorem Obj.get_cons (k k' : Ticker) (v' : β) (o : Obj β) :
    Obj.get ((k', v') :: o) k = if k' = k then some v' else Obj.get o k := by
  unfold Obj.get
  rw [List.lookup_cons]
  by_cases h : k' = k
  · subst h; simp
  · have e : (k == k') = false := by
      simp only [beq_eq_false_iff_ne, ne_eq]
      exact fun e => h e.symm
    simp [e, h]

theorem Obj.get_set_self (o : Obj β) (k : Ticker) (v : β) :
    (o.set k v).get k = some v := by
  induction o with
  | nil => simp [Obj.set, Obj.get_cons]
  | cons p o ih =>
    obtain ⟨k', v'⟩ := p
    by_cases h : k' = k
    · simp [Obj.set, h, Obj.get_cons]
    · simp [Obj.set, h, Obj.get_cons, ih]

theorem Obj.get_set_ne (o : Obj β) (k k₂ : Ticker) (v : β) (hne : k₂ ≠ k) :
    (o.set k v).get k₂ = o.get k₂ := by
  induction o with
  | nil =>
    have : ¬ k = k₂ := fun e => hne e.symm
    simp [Obj.set, Obj.get_cons, Obj.get_nil, this]
  | cons p o ih =>
    obtain ⟨k', v'⟩ := p
    by_cases h : k' = k
    · have h2 : ¬ k = k₂ := fun e => hne e.symm
      have h3 : ¬ k' = k₂ := fun e => hne (e.symm.trans h)
      simp [Obj.set, h, Obj.get_cons, h2]
    · simp [Obj.set, h, Obj.get_cons, ih]

theorem Obj.get_eq_none_iff (o : Obj β) (k : Ticker) :
    o.get k = none ↔ k ∉ o.map Prod.fst := by
  induction o with
  | nil => simp [Obj.get_nil]
  | cons p o ih =>
    obtain ⟨k', v'⟩ := p
    by_cases h : k' = k
    · simp [Obj.get_cons, h]
    · have h2 : ¬ k = k' := fun e => h e.symm
      simp [Obj.get_cons, h, h2, ih]

theorem Obj.map_fst_set (o : Obj β) (k : Ticker) (v : β) :
    (o.set k v).map Prod.fst
      = if k ∈ o.map Prod.fst then o.map Prod.fst else o.map Prod.fst ++ [k] := by
  induction o with
  | nil => simp [Obj.set]
  | cons p o ih =>
    obtain ⟨k', v'⟩ := p
    by_cases h : k' = k
    · simp [Obj.set, h]
    · have h2 : ¬ k = k' := fun e => h e.symm
      simp only [Obj.set, h, if_false, List.map_cons, ih, List.mem_cons, h2, false_or]
      split <;> simp

theorem Obj.map_fst_modify (o : Obj β) (k : Ticker) (f : β → β) :
    (o.modify k f).map Prod.fst = o.map Prod.fst := by
  induction o with
  | nil => simp [Obj.modify]
  | cons p o ih =>
    obtain ⟨k', v'⟩ := p
    by_cases h : k' = k
    · simp [Obj.modify, h]
    · simp [Obj.modify, h, ih]

theorem Obj.get_modify_self (o : Obj β) (k : Ticker) (f : β → β) :
    (o.modify k f).get k = (o.get k).map f := by
  induction o with
  | nil => simp [Obj.modify, Obj.get_nil]
  | cons p o ih =>
    obtain ⟨k', v'⟩ := p
    by_cases h : k' = k
    · simp [Obj.modify, h, Obj.get_cons]
    · simp [Obj.modify, h, Obj.get_cons, ih]

theorem Obj.get_modify_ne (o : Obj β) (k k₂ : Ticker) (f : β → β) (hne : k₂ ≠ k) :
    (o.modify k f).get k₂ = o.get k₂ := by
  induction o with
  | nil => simp [Obj.modify]
  | cons p o ih =>
    obtain ⟨k', v'⟩ := p
    by_cases h : k' = k
    · have h3 : ¬ k = k₂ := fun e => hne e.symm
      simp [Obj.modify, h, Obj.get_cons, h3]
    · simp [Obj.modify, h, Obj.get_cons, ih]

theorem Obj.WF_set (o : Obj β) (k : Ticker) (v : β) (h : o.WF) : (o.set k v).WF := by
  unfold Obj.WF at *
  rw [Obj.map_fst_set]
  split
  · exact h
  · rename_i hk
    exact List.Nodup.append h (List.nodup_singleton k) (by simpa using hk)

theorem Obj.WF_modify (o : Obj β) (k : Ticker) (f : β → β) (h : o.WF) :
    (o.modify k f).WF := by
  unfold Obj.WF at *
  rw [Obj.map_fst_modify]
  exact h

theorem Obj.keys_perm (o : Obj β) : (Obj.keys o).Perm (o.map Prod.fst) := by
  unfold Obj.keys
  have h1 := List.perm_insertionSort
    (fun a b : Ticker => (arrayIndex a).getD 0 ≤ (arrayIndex b).getD 0)
    ((o.map Prod.fst).filter (fun k => (arrayIndex k).isSome))
  have h2 := List.filter_append_perm (fun k : Ticker => (arrayIndex k).isSome)
    (o.map Prod.fst)
  refine List.Perm.trans (List.Perm.append_right _ h1) ?_
  have e : (fun k : Ticker => (arrayIndex k).isNone) = fun k => !(arrayIndex k).isSome := by
    funext k
    cases arrayIndex k <;> rfl
  rw [e]
  simpa using h2

theorem Obj.mem_keys (o : Obj β) (k : Ticker) : k ∈ Obj.keys o ↔ k ∈ o.map Prod.fst :=
  (Obj.keys_perm o).mem_iff

theorem Obj.nodup_keys (o : Obj β) (h : o.WF) : (Obj.keys o).Nodup :=
  (Obj.keys_perm o).nodup_iff.mpr h

end ObjProofs

/-! ## `getPrice` -/

theorem getPrice_of_fresh (cache : Obj CacheEntry) (s : Ticker) (now : Int)
    (net : FetchResult) (e : CacheEntry) (h : freshEntry cache s now = some e) :
    getPrice cache s now net = { value := some e.data, fetched := false, cache := cache } := by
  simp [getPrice, h]

theorem getPrice_of_miss (cache : Obj CacheEntry) (s : Ticker) (now : Int)
    (status : Nat) (d : PriceData) (h : freshEntry cache s now = none) :
    getPrice cache s now (.response status (some d))
      = { value := some d, fetched := true,
          cache := cache.set s { data := d, timestamp := now } } := by
  simp [getPrice, h]

theorem getPrice_fetched_iff (cache : Obj CacheEntry) (s : Ticker) (now : Int)
    (net : FetchResult) :
    (getPrice cache s now net).fetched = true ↔ freshEntry cache s now = none := by
  unfold getPrice
  cases h : freshEntry cache s now with
  | some e => simp
  | none =>
    cases net with
    | networkError => simp
    | response status body => cases body <;> simp

/-- A call that fetched and obtained a value has stored it under the clock it read. -/
theorem getPrice_stored (cache : Obj CacheEntry) (s : Ticker) (now : Int)
    (net : FetchResult) (d : PriceData)
    (hfetch : (getPrice cache s now net).fetched = true)
    (hval : (getPrice cache s now net).value = some d) :
    (getPrice cache s now net).cache = cache.set s { data := d, timestamp := now } := by
  have hmiss := (getPrice_fetched_iff cache s now net).mp hfetch
  unfold getPrice at hval ⊢
  rw [hmiss] at hval ⊢
  cases net with
  | networkError => simp at hval
  | response status body =>
    cases body with
    | none => simp at hval
    | some d' =>
      simp only [Option.some.injEq] at hval
      subst hval
      rfl

theorem freshEntry_set_self (cache : Obj CacheEntry) (s : Ticker) (e : CacheEntry)
    (now : Int) :
    freshEntry (cache.set s e) s now
      = if now - e.timestamp < CACHE_TTL then some e else none := by
  simp [freshEntry, Obj.get_set_self]

theorem freshEntry_congr (c₁ c₂ : Obj CacheEntry) (s : Ticker) (now : Int)
    (h : c₁.get s = c₂.get s) : freshEntry c₁ s now = freshEntry c₂ s now := by
  simp [freshEntry, h]

/-- Claim C6. After a get for `s` at time `t0` that fetched and stored a value, a get for
`s` at any time `t1` with `t1 - t0 < 60000` returns the stored value, issues no fetch and
leaves the cache unchanged, so that the two gets issue exactly one fetch; a get for `s` at
any time `t1` with `t1 - t0 ≥ 60000` issues a new fetch and overwrites the entry with the
value that this fetch delivers. -/
theorem getPrice_ttl (cache : Obj CacheEntry) (s : Ticker) (t0 t1 : Int)
    (net0 net1 : FetchResult) (d0 : PriceData)
    (hfetch : (getPrice cache s t0 net0).fetched = true)
    (hstore : (getPrice cache s t0 net0).value = some d0) :
    (getPrice cache s t0 net0).cache.get s = some { data := d0, timestamp := t0 } ∧
      (t1 - t0 < 60000 →
        getPrice (getPrice cache s t0 net0).cache s t1 net1
            = { value := some d0, fetched := false, cache := (getPrice cache s t0 net0).cache } ∧
          ([(getPrice cache s t0 net0).fetched,
            (getPrice (getPrice cache s t0 net0).cache s t1 net1).fetched].count true = 1)) ∧
      (60000 ≤ t1 - t0 →
        (getPrice (getPrice cache s t0 net0).cache s t1 net1).fetched = true ∧
          ∀ status d1, net1 = .response status (some d1) →
            (getPrice (getPrice cache s t0 net0).cache s t1 net1).value = some d1 ∧
              (getPrice (getPrice cache s t0 net0).cache s t1 net1).cache
                = (getPrice cache s t0 net0).cache.set s { data := d1, timestamp := t1 } ∧
              (getPrice (getPrice cache s t0 net0).cache s t1 net1).cache.get s
                = some { data := d1, timestamp := t1 }) := by
  have hc := getPrice_stored cache s t0 net0 d0 hfetch hstore
  have hfresh := freshEntry_set_self cache s { data := d0, timestamp := t0 } t1
  rw [← hc] at hfresh
  refine ⟨by rw [hc, Obj.get_set_self], ?_, ?_⟩
  · intro hlt
    have hf : freshEntry (getPrice cache s t0 net0).cache s t1
        = some { data := d0, timestamp := t0 } := by
      rw [hfresh]
      simp [CACHE_TTL, hlt]
    have h2 := getPrice_of_fresh _ s t1 net1 _ hf
    refine ⟨h2, ?_⟩
    rw [h2, hfetch]
    rfl
  · intro hge
    have hf : freshEntry (getPrice cache s t0 net0).cache s t1 = none := by
      rw [hfresh]
      have : ¬ t1 - t0 < 60000 := not_lt.mpr hge
      simp [CACHE_TTL, this]
    refine ⟨(getPrice_fetched_iff _ s t1 net1).mpr hf, ?_⟩
    intro status d1 hnet
    subst hnet
    have hv : getPrice (getPrice cache s t0 net0).cache s t1 (.response status (some d1))
        = { value := some d1, fetched := true,
            cache := (getPrice cache s t0 net0).cache.set s { data := d1, timestamp := t1 } } :=
      getPrice_of_miss _ s t1 status d1 hf
    rw [hv]
    exact ⟨rfl, rfl, Obj.get_set_self _ _ _⟩

theorem getPrice_ttl_witness :
    (getPrice [] (.str "AAPL".toList) 0 (.response 200 (some (.body (some 5))))).fetched = true ∧
      (getPrice (getPrice [] (.str "AAPL".toList) 0
          (.response 200 (some (.body (some 5))))).cache (.str "AAPL".toList) 30000
          .networkError).value = some (.body (some 5)) ∧
      (getPrice (getPrice [] (.str "AAPL".toList) 0
          (.response 200 (some (.body (some 5))))).cache (.str "AAPL".toList) 61000
          (.response 200 (some (.body (some 6))))).fetched = true :=
  have h := getPrice_ttl [] (.str "AAPL".toList) 0 30000
    (.response 200 (some (.body (some 5)))) .networkError (.body (some 5)) (by decide) (by decide)
  have h' := getPrice_ttl [] (.str "AAPL".toList) 0 61000
    (.response 200 (some (.body (some 5)))) (.response 200 (some (.body (some 6))))
    (.body (some 5)) (by decide) (by decide)
  ⟨by decide, by rw [(h.2.1 (by decide)).1], (h'.2.2 (by decide)).1⟩

/-- The claim C7 as stated fails for the failures that do not reject: an answer `404`
with a JSON body is a network failure in the sense of the specification, yet `getPrice`
resolves to that body and stores it in the cache, lines 55-60 never reading `res.ok`. -/
theorem getPrice_caches_error_answer :
    ¬ ∀ (cache : Obj CacheEntry) (s : Ticker) (now : Int) (net : FetchResult),
        freshEntry cache s now = none → net.networkFailure = true →
        (getPrice cache s now net).value = none ∧
          (getPrice cache s now net).cache = cache := by
  intro h
  have h1 := h [] (.str "XYZ".toList) 0 notFoundAnswer (by decide) (by decide)
  revert h1
  decide

/-- Claim C7, amended. For every cache state and ticker, when `getPrice` has to fetch and
the fetch is rejected (`fetch` rejects, or the body is not JSON and `res.json()` rejects),
`getPrice` is rejected and the cache afterwards is the cache before the call.  An answer
whose body is JSON, whatever its HTTP status, is no failure for `getPrice`: the call
resolves to the body and stores it in the cache. -/
theorem getPrice_fetch_failure (cache : Obj CacheEntry) (s : Ticker) (now : Int)
    (net : FetchResult) (hmiss : freshEntry cache s now = none) :
    (net.rejected = true →
        (getPrice cache s now net).value = none ∧
          (getPrice cache s now net).fetched = true ∧
          (getPrice cache s now net).cache = cache) ∧
      (∀ status data, net = .response status (some data) →
        (getPrice cache s now net).value = some data ∧
          (getPrice cache s now net).fetched = true ∧
          (getPrice cache s now net).cache
            = cache.set s { data := data, timestamp := now }) := by
  constructor
  · intro hrej
    cases net with
    | networkError => simp [getPrice, hmiss]
    | response status body =>
      cases body with
      | none => simp [getPrice, hmiss]
      | some data => simp [FetchResult.rejected] at hrej
  · intro status data hnet
    subst hnet
    rw [getPrice_of_miss cache s now status data hmiss]
    exact ⟨rfl, rfl, rfl⟩

theorem getPrice_fetch_failure_witness :
    ((getPrice [(.str "AAPL".toList, { data := .body (some 5), timestamp := 0 })]
          (.str "AAPL".toList) 61000 .networkError).value = none ∧
        (getPrice [(.str "AAPL".toList, { data := .body (some 5), timestamp := 0 })]
          (.str "AAPL".toList) 61000 .networkError).fetched = true ∧
        (getPrice [(.str "AAPL".toList, { data := .body (some 5), timestamp := 0 })]
          (.str "AAPL".toList) 61000 .networkError).cache
          = [(.str "AAPL".toList, { data := .body (some 5), timestamp := 0 })]) ∧
      (getPrice [] (.str "XYZ".toList) 0 notFoundAnswer).value = some (.body none) ∧
      (getPrice [] (.str "XYZ".toList) 0 notFoundAnswer).cache
        = [(.str "XYZ".toList, { data := .body none, timestamp := 0 })] :=
  ⟨(getPrice_fetch_failure _ _ _ .networkError (by decide)).1 rfl,
    ((getPrice_fetch_failure [] (.str "XYZ".toList) 0 notFoundAnswer (by decide)).2
      404 (.body none) rfl).1,
    ((getPrice_fetch_failure [] (.str "XYZ".toList) 0 notFoundAnswer (by decide)).2
      404 (.body none) rfl).2.2⟩

/-! ## `updateAllSymbols` -/

theorem getPrice_value_congr (c₁ c₂ : Obj CacheEntry) (s : Ticker) (now : Int)
    (net : FetchResult) (h : c₁.get s = c₂.get s) :
    (getPrice c₁ s now net).value = (getPrice c₂ s now net).value := by
  have hf := freshEntry_congr c₁ c₂ s now h
  unfold getPrice
  rw [hf]
  cases freshEntry c₂ s now with
  | some e => rfl
  | none =>
    cases net with
    | networkError => rfl
    | response status body => cases body <;> rfl

/-- A call of `getPrice` leaves the entries of the other symbols alone. -/
theorem getPrice_cache_get_ne (c : Obj CacheEntry) (s s₂ : Ticker) (now : Int)
    (net : FetchResult) (hne : s₂ ≠ s) :
    (getPrice c s now net).cache.get s₂ = c.get s₂ := by
  unfold getPrice
  cases freshEntry c s now with
  | some e => rfl
  | none =>
    cases net with
    | networkError => rfl
    | response status body =>
      cases body with
      | none => rfl
      | some d => exact Obj.get_set_ne c s s₂ _ hne

/-- In a round over distinct symbols each lookup settles as it would on the cache at the
start of the round. -/
theorem getPrices_results (env : RoundEnv) (ks : List Ticker) (c : Obj CacheEntry)
    (hnd : ks.Nodup) :
    (getPrices env ks c).2
      = ks.map (fun t => (t, (getPrice c t (env.now t) (env.net t)).value)) := by
  induction ks generalizing c with
  | nil => rfl
  | cons k ks ih =>
    have hk : k ∉ ks := (List.nodup_cons.mp hnd).1
    simp only [getPrices, List.map_cons]
    rw [ih _ (List.nodup_cons.mp hnd).2]
    congr 1
    apply List.map_congr_left
    intro t ht
    have hne : t ≠ k := fun e => hk (e ▸ ht)
    rw [getPrice_value_congr _ c t _ _ (getPrice_cache_get_ne c k t _ _ hne)]

theorem applyResults_get_not_mem (env : RoundEnv)
    (results : List (Ticker × Option PriceData)) (cd : Obj Series) (sym : Ticker)
    (h : sym ∉ results.map Prod.fst) :
    (applyResults env results cd).get sym = cd.get sym := by
  induction results generalizing cd with
  | nil => rfl
  | cons r rest ih =>
    obtain ⟨t, d⟩ := r
    have hne : sym ≠ t := fun e => h (by simp [e])
    have hrest : sym ∉ rest.map Prod.fst := fun hm => h (by simp at hm ⊢; exact Or.inr hm)
    cases d with
    | none => rfl
    | some data =>
      cases data with
      | null => rfl
      | body price =>
        simp only [applyResults]
        cases usablePrice (.body price) with
        | none => exact ih cd hrest
        | some p =>
          simp only
          rw [ih _ hrest, Obj.get_modify_ne _ _ _ _ hne]

theorem applyResults_map_fst (env : RoundEnv)
    (results : List (Ticker × Option PriceData)) (cd : Obj Series) :
    (applyResults env results cd).map Prod.fst = cd.map Prod.fst := by
  induction results generalizing cd with
  | nil => rfl
  | cons r rest ih =>
    obtain ⟨t, d⟩ := r
    cases d with
    | none => rfl
    | some data =>
      cases data with
      | null => rfl
      | body price =>
        simp only [applyResults]
        cases usablePrice (.body price) with
        | none => exact ih cd
        | some p =>
          simp only
          rw [ih, Obj.map_fst_modify]

/-- When every lookup of the round resolved to a body other than `null`, the loop over
the results samples each listed symbol once, from its own result. -/
theorem applyResults_get_mem (env : RoundEnv)
    (results : List (Ticker × Option PriceData)) (cd : Obj Series) (sym : Ticker)
    (value : Option PriceData)
    (hnd : (results.map Prod.fst).Nodup)
    (hbody : ∀ r ∈ results, ∃ price, r.2 = some (.body price))
    (hmem : (sym, value) ∈ results) :
    (applyResults env results cd).get sym = (cd.get sym).map (roundSample env sym value) := by
  induction results generalizing cd with
  | nil => simp at hmem
  | cons r rest ih =>
    obtain ⟨t, d⟩ := r
    obtain ⟨price, hd⟩ := hbody (t, d) (List.mem_cons_self _ _)
    simp only at hd
    subst hd
    have hnd' : (rest.map Prod.fst).Nodup := by
      simp only [List.map_cons, List.nodup_cons] at hnd
      exact hnd.2
    have ht : t ∉ rest.map Prod.fst := by
      simp only [List.map_cons, List.nodup_cons] at hnd
      exact hnd.1
    have hbody' : ∀ r ∈ rest, ∃ price, r.2 = some (.body price) :=
      fun r hr => hbody r (List.mem_cons_of_mem _ hr)
    rcases List.mem_cons.mp hmem with e | hrest
    · have e1 : sym = t := (Prod.mk.inj e).1
      have e2 : value = some (.body price) := (Prod.mk.inj e).2
      subst e1 e2
      simp only [applyResults]
      cases hu : usablePrice (.body price) with
      | none =>
        have hr : roundSample env sym (some (.body price)) = id := by
          funext series
          simp [roundSample, hu]
        simp only
        rw [applyResults_get_not_mem env rest cd sym ht, hr, Option.map_id, id]
      | some p =>
        have hr : roundSample env sym (some (.body price))
            = fun series => series.push (env.stamp sym) p := by
          funext series
          simp [roundSample, hu]
        simp only
        rw [applyResults_get_not_mem env rest _ sym ht, Obj.get_modify_self, hr]
    · have hne : sym ≠ t := by
        intro e
        apply ht
        rw [← e]
        exact List.mem_map_of_mem Prod.fst hrest
      simp only [applyResults]
      cases usablePrice (.body price) with
      | none => exact ih cd hnd' hbody' hrest
      | some p =>
        simp only
        rw [ih _ hnd' hbody' hrest, Obj.get_modify_ne _ _ _ _ hne]

theorem Obj.mem_keys_of_get {β : Type} (o : Obj β) (k : Ticker) (v : β)
    (h : o.get k = some v) : k ∈ Obj.keys o := by
  rw [Obj.mem_keys]
  by_contra hk
  rw [← Obj.get_eq_none_iff] at hk
  rw [hk] at h
  exact Option.noConfusion h

/-- The claim C8 as stated fails: with `AAPL` and `TSLA` tracked and both cache entries
expired, the rejected fetch for `AAPL` makes `Promise.all` reject, and `TSLA`, whose fetch
returned the usable price `8`, gets no sample in that round. -/
theorem updateAllSymbols_failure_blocks :
    ¬ ∀ (s : Session) (env : RoundEnv) (bad sym : Ticker) (series : Series) (p : ℚ),
        s.chartData.WF → bad ∈ s.chartData.keys → sym ≠ bad →
        (getPrice s.priceCache bad (env.now bad) (env.net bad)).value = none →
        s.chartData.get sym = some series →
        ((getPrice s.priceCache sym (env.now sym) (env.net sym)).value).bind usablePrice
          = some p →
        (updateAllSymbols s env).chartData.get sym
          = some (series.push (env.stamp sym) p) := by
  intro h
  have h1 := h twoTickers aaplDown (.str "AAPL".toList) (.str "TSLA".toList)
    { x := [2], y := [7], color := "#33FF57".toList } 8
    (by unfold Obj.WF; decide) (by decide) (by decide) (by decide) (by decide) (by decide)
  revert h1
  decide

/-- Claim C8, amended. In a refresh round in which every tracked symbol's price lookup
resolves to a body other than `null`, a symbol without a usable price does not block the
round: every tracked symbol whose lookup returned a usable price gets exactly one sample
appended, and a symbol without one keeps its series.  When the lookup of some tracked
symbol is rejected, the round appends no sample to any series.  In both cases the set of
tracked symbols is unchanged. -/
theorem updateAllSymbols_round (s : Session) (env : RoundEnv) (hwf : s.chartData.WF) :
    ((∀ t ∈ s.chartData.keys, ∃ price,
          (getPrice s.priceCache t (env.now t) (env.net t)).value = some (.body price)) →
        ∀ sym series, s.chartData.get sym = some series →
          (updateAllSymbols s env).chartData.get sym
            = some (roundSample env sym
                (getPrice s.priceCache sym (env.now sym) (env.net sym)).value series)) ∧
      ((∃ t ∈ s.chartData.keys,
          (getPrice s.priceCache t (env.now t) (env.net t)).value = none) →
        (updateAllSymbols s env).chartData = s.chartData) ∧
      (updateAllSymbols s env).chartData.map Prod.fst = s.chartData.map Prod.fst := by
  have hnd := Obj.nodup_keys s.chartData hwf
  have hres := getPrices_results env s.chartData.keys s.priceCache hnd
  refine ⟨?_, ?_, ?_⟩
  · intro hall sym series hget
    have hmem := Obj.mem_keys_of_get s.chartData sym series hget
    have hne : s.chartData.keys ≠ [] := List.ne_nil_of_mem hmem
    have hany : (getPrices env s.chartData.keys s.priceCache).2.any
        (fun p => p.2.isNone) = false := by
      rw [hres, List.any_eq_false]
      intro r hr
      obtain ⟨t, ht, rfl⟩ := List.mem_map.mp hr
      obtain ⟨price, hp⟩ := hall t ht
      simp [hp]
    unfold updateAllSymbols
    simp only [hne, if_false, hany, Bool.false_eq_true]
    rw [hres]
    rw [applyResults_get_mem env _ s.chartData sym
      (getPrice s.priceCache sym (env.now sym) (env.net sym)).value]
    · rw [hget]; rfl
    · simpa [List.map_map, Function.comp_def] using hnd
    · intro r hr
      obtain ⟨t, ht, rfl⟩ := List.mem_map.mp hr
      exact hall t ht
    · exact List.mem_map.mpr ⟨sym, hmem, rfl⟩
  · rintro ⟨t, ht, hnone⟩
    have hne : s.chartData.keys ≠ [] := List.ne_nil_of_mem ht
    have hany : (getPrices env s.chartData.keys s.priceCache).2.any
        (fun p => p.2.isNone) = true := by
      rw [hres, List.any_eq_true]
      exact ⟨_, List.mem_map.mpr ⟨t, ht, rfl⟩, by simp [hnone]⟩
    unfold updateAllSymbols
    simp only [hne, if_false, hany, if_true]
  · unfold updateAllSymbols
    simp only
    split
    · rfl
    · split
      · rfl
      · exact applyResults_map_fst env _ _

theorem updateAllSymbols_round_witness :
    (updateAllSymbols twoTickers aaplUnknown).chartData.get (.str "TSLA".toList)
        = some { x := [2, 65100], y := [7, 8], color := "#33FF57".toList } ∧
      (updateAllSymbols twoTickers aaplUnknown).chartData.get (.str "AAPL".toList)
        = some { x := [1], y := [5], color := "#FF5733".toList } ∧
      (updateAllSymbols twoTickers aaplDown).chartData = twoTickers.chartData := by
  have hall : ∀ t ∈ twoTickers.chartData.keys, ∃ price,
      (getPrice twoTickers.priceCache t (aaplUnknown.now t) (aaplUnknown.net t)).value
        = some (.body price) := by
    intro t ht
    have hk : twoTickers.chartData.keys = [.str "AAPL".toList, .str "TSLA".toList] := by
      decide
    rw [hk] at ht
    rcases List.mem_cons.mp ht with e | ht
    · subst e; exact ⟨none, by decide⟩
    · rcases List.mem_cons.mp ht with e | ht
      · subst e; exact ⟨some 8, by decide⟩
      · simp at ht
  have h := updateAllSymbols_round twoTickers aaplUnknown (by unfold Obj.WF; decide)
  have h' := updateAllSymbols_round twoTickers aaplDown (by unfold Obj.WF; decide)
  refine ⟨?_, ?_, h'.2.1 ⟨.str "AAPL".toList, by decide, by decide⟩⟩
  · rw [h.1 hall (.str "TSLA".toList) { x := [2], y := [7], color := "#33FF57".toList }
      (by decide)]
    decide
  · rw [h.1 hall (.str "AAPL".toList) { x := [1], y := [5], color := "#FF5733".toList }
      (by decide)]
    decide

/-! ## `addStock` -/

/-- A call of `addStock` that ends in `added` was made with a non-empty input and obtained
a usable price. -/
theorem addStock_added (s : Session) (i : JSString) (now : Int) (net : FetchResult)
    (stamp : Int) (h : (addStock s i now net stamp).outcome = .added) :
    i ≠ [] ∧ ∃ p, ((getPrice s.priceCache (resolveSymbol i) now net).value).bind usablePrice
      = some p := by
  unfold addStock at h
  by_cases hi : i = []
  · simp [hi] at h
  · refine ⟨hi, ?_⟩
    simp only [hi, if_false] at h
    cases hv : (getPrice s.priceCache (resolveSymbol i) now net).value with
    | none => rw [hv] at h; simp at h
    | some data =>
      rw [hv] at h
      cases data with
      | null => simp at h
      | body price =>
        simp only at h
        cases hu : usablePrice (.body price) with
        | none => rw [hu] at h; simp at h
        | some p => exact ⟨p, by simp [hu]⟩

/-- What a call of `addStock` that obtains the usable price `p` does: the cache is the one
left by `getPrice`, an entry is created for the symbol when it has none, and the sample is
pushed on the series of the symbol. -/
theorem addStock_of_price (s : Session) (i : JSString) (now : Int) (net : FetchResult)
    (stamp : Int) (p : ℚ) (hi : i ≠ [])
    (hp : ((getPrice s.priceCache (resolveSymbol i) now net).value).bind usablePrice
      = some p) :
    (addStock s i now net stamp).outcome = .added ∧
      (addStock s i now net stamp).fetched
        = (getPrice s.priceCache (resolveSymbol i) now net).fetched ∧
      (addStock s i now net stamp).session.priceCache
        = (getPrice s.priceCache (resolveSymbol i) now net).cache ∧
      ∃ c, (addStock s i now net stamp).session.chartData
        = (if (s.chartData.get (resolveSymbol i)).isNone
            then s.chartData.set (resolveSymbol i) { x := [], y := [], color := c }
            else s.chartData).modify (resolveSymbol i) (fun series => series.push stamp p) := by
  cases hv : (getPrice s.priceCache (resolveSymbol i) now net).value with
  | none => rw [hv] at hp; simp at hp
  | some data =>
    rw [hv] at hp
    replace hp : usablePrice data = some p := hp
    cases data with
    | null => simp [usablePrice] at hp
    | body price =>
      unfold addStock
      simp only [hi, if_false, hv, hp]
      by_cases hc : colorOf s.assignedColors (resolveSymbol i) = [] <;>
        by_cases hg : (s.chartData.get (resolveSymbol i)).isNone = true <;>
        simp only [hc, hg, if_true, if_false, true_and, Bool.false_eq_true]
      · exact ⟨_, rfl⟩
      · exact ⟨[], trivial⟩
      · exact ⟨_, rfl⟩
      · exact ⟨[], trivial⟩

/-- The chart data after lines 172-189: an entry is created for an untracked symbol, and
the sample goes to the end of the series of the symbol. -/
theorem track_and_push (cd : Obj Series) (sym : Ticker) (c : JSString) (stamp : Int)
    (p : ℚ) (hwf : cd.WF) :
    ((if (cd.get sym).isNone then cd.set sym { x := [], y := [], color := c } else cd).modify
        sym (fun series => series.push stamp p)).WF ∧
      ((if (cd.get sym).isNone then cd.set sym { x := [], y := [], color := c } else cd).modify
        sym (fun series => series.push stamp p)).map Prod.fst
        = (if sym ∈ cd.map Prod.fst then cd.map Prod.fst else cd.map Prod.fst ++ [sym]) ∧
      ((if (cd.get sym).isNone then cd.set sym { x := [], y := [], color := c } else cd).modify
        sym (fun series => series.push stamp p)).get sym
        = some (((cd.get sym).getD { x := [], y := [], color := c }).push stamp p) := by
  cases hg : cd.get sym with
  | none =>
    have hnot : sym ∉ cd.map Prod.fst := (Obj.get_eq_none_iff cd sym).mp hg
    simp only [Option.isNone_none, if_true, Option.getD_none]
    refine ⟨Obj.WF_modify _ _ _ (Obj.WF_set _ _ _ hwf), ?_, ?_⟩
    · rw [Obj.map_fst_modify, Obj.map_fst_set]
    · rw [Obj.get_modify_self, Obj.get_set_self]
      rfl
  | some series =>
    have hin : sym ∈ cd.map Prod.fst := by
      by_contra hnot
      rw [← Obj.get_eq_none_iff] at hnot
      rw [hnot] at hg
      exact Option.noConfusion hg
    simp only [Option.isNone_some, Bool.false_eq_true, if_false, Option.getD_some]
    refine ⟨Obj.WF_modify _ _ _ hwf, ?_, ?_⟩
    · rw [Obj.map_fst_modify]
      simp [hin]
    · rw [Obj.get_modify_self, hg]
      rfl

/-- The claim C9 as stated fails: from the empty session, `addStock("apple")` at time `0`
and `addStock("appl")` at time `1000` both resolve to `AAPL` and both obtain a usable
price, but the second call is served from the cache, so one fetch is issued, not two. -/
theorem addStock_twice_one_fetch :
    ¬ ∀ (s : Session) (i1 i2 : JSString) (now1 now2 stamp1 stamp2 : Int)
        (net1 net2 : FetchResult),
        s.chartData.WF → resolveSymbol i2 = resolveSymbol i1 →
        (addStock s i1 now1 net1 stamp1).outcome = .added →
        (addStock (addStock s i1 now1 net1 stamp1).session i2 now2 net2 stamp2).outcome
          = .added →
        ((addStock (addStock s i1 now1 net1 stamp1).session i2 now2 net2
            stamp2).session.chartData.map Prod.fst).count (resolveSymbol i1) = 1 ∧
          [(addStock s i1 now1 net1 stamp1).fetched,
            (addStock (addStock s i1 now1 net1 stamp1).session i2 now2 net2
              stamp2).fetched].count true = 2 := by
  intro h
  have h1 := h emptySession "apple".toList "appl".toList 0 1000 1 1001
    (.response 200 (some (.body (some 5)))) (.response 200 (some (.body (some 6))))
    (by unfold Obj.WF; decide) (by decide) (by decide) (by decide)
  revert h1
  decide

/-- Claim C9, amended. Two successive calls of `addStock` whose inputs resolve to the same
symbol, each obtaining a usable price, leave exactly one series entry for that symbol (an
entry is created only if the symbol was untracked; the second call neither duplicates nor
resets it) and append two samples to it.  Each call issues a network fetch exactly when
the cache holds no entry for the symbol younger than 60000 ms: after a first call that
fetched, the second call fetches again only when it reads the clock 60000 ms or more after
the first one. -/
theorem addStock_twice (s : Session) (i1 i2 : JSString) (now1 now2 stamp1 stamp2 : Int)
    (net1 net2 : FetchResult) (hwf : s.chartData.WF)
    (hsym : resolveSymbol i2 = resolveSymbol i1)
    (h1 : (addStock s i1 now1 net1 stamp1).outcome = .added)
    (h2 : (addStock (addStock s i1 now1 net1 stamp1).session i2 now2 net2 stamp2).outcome
      = .added) :
    ∃ (p1 p2 : ℚ) (series0 : Series),
      ((getPrice s.priceCache (resolveSymbol i1) now1 net1).value).bind usablePrice
          = some p1 ∧
        ((getPrice (addStock s i1 now1 net1 stamp1).session.priceCache (resolveSymbol i1)
          now2 net2).value).bind usablePrice = some p2 ∧
        (s.chartData.get (resolveSymbol i1) = some series0 ∨
          (s.chartData.get (resolveSymbol i1) = none ∧ series0.x = [] ∧ series0.y = [])) ∧
        (addStock (addStock s i1 now1 net1 stamp1).session i2 now2 net2
            stamp2).session.chartData.get (resolveSymbol i1)
          = some ((series0.push stamp1 p1).push stamp2 p2) ∧
        ((addStock (addStock s i1 now1 net1 stamp1).session i2 now2 net2
            stamp2).session.chartData.map Prod.fst).count (resolveSymbol i1) = 1 ∧
        (addStock (addStock s i1 now1 net1 stamp1).session i2 now2 net2
            stamp2).session.chartData.map Prod.fst
          = (if resolveSymbol i1 ∈ s.chartData.map Prod.fst then s.chartData.map Prod.fst
              else s.chartData.map Prod.fst ++ [resolveSymbol i1]) ∧
        ((addStock s i1 now1 net1 stamp1).fetched = true
          ↔ freshEntry s.priceCache (resolveSymbol i1) now1 = none) ∧
        ((addStock (addStock s i1 now1 net1 stamp1).session i2 now2 net2 stamp2).fetched
            = true
          ↔ freshEntry (addStock s i1 now1 net1 stamp1).session.priceCache
              (resolveSymbol i1) now2 = none) ∧
        ((addStock s i1 now1 net1 stamp1).fetched = true →
          ((addStock (addStock s i1 now1 net1 stamp1).session i2 now2 net2 stamp2).fetched
              = true
            ↔ 60000 ≤ now2 - now1)) := by
  obtain ⟨hi1, p1, hp1⟩ := addStock_added s i1 now1 net1 stamp1 h1
  obtain ⟨hi2, p2, hp2⟩ := addStock_added _ i2 now2 net2 stamp2 h2
  rw [hsym] at hp2
  obtain ⟨-, hf1, hc1, c1, hcd1⟩ := addStock_of_price s i1 now1 net1 stamp1 p1 hi1 hp1
  obtain ⟨-, hf2, hc2, c2, hcd2⟩ := addStock_of_price _ i2 now2 net2 stamp2 p2 hi2
    (by rw [hsym]; exact hp2)
  rw [hsym] at hf2 hc2 hcd2
  obtain ⟨hwf1, hk1, hg1⟩ := track_and_push s.chartData (resolveSymbol i1) c1 stamp1 p1 hwf
  rw [← hcd1] at hwf1 hk1 hg1
  obtain ⟨hwf2, hk2, hg2⟩ := track_and_push (addStock s i1 now1 net1 stamp1).session.chartData
    (resolveSymbol i1) c2 stamp2 p2 hwf1
  rw [← hcd2] at hwf2 hk2 hg2
  have hin1 : resolveSymbol i1 ∈ (addStock s i1 now1 net1 stamp1).session.chartData.map
      Prod.fst := by
    rw [hk1]
    split
    · assumption
    · simp
  refine ⟨p1, p2, (s.chartData.get (resolveSymbol i1)).getD { x := [], y := [], color := c1 },
    hp1, hp2, ?_, ?_, ?_, ?_, ?_, ?_, ?_⟩
  · cases s.chartData.get (resolveSymbol i1) with
    | none => exact Or.inr ⟨rfl, rfl, rfl⟩
    | some series => exact Or.inl rfl
  · rw [hg2, hg1]
    rfl
  · exact List.count_eq_one_of_mem hwf2 (by rw [hk2]; simp [hin1])
  · rw [hk2, if_pos hin1, hk1]
  · rw [hf1]
    exact getPrice_fetched_iff _ _ _ _
  · rw [hf2]
    exact getPrice_fetched_iff _ _ _ _
  · intro hfetched
    rw [hf1] at hfetched
    cases hv : (getPrice s.priceCache (resolveSymbol i1) now1 net1).value with
    | none => rw [hv] at hp1; simp at hp1
    | some d =>
      have hst := getPrice_stored _ _ _ _ d hfetched hv
      rw [hf2, getPrice_fetched_iff, hc1, hst, freshEntry_set_self]
      simp only [CACHE_TTL]
      constructor
      · intro h
        by_contra hlt
        have : now2 - now1 < 60000 := not_le.mp hlt
        simp [this] at h
      · intro h
        have : ¬ now2 - now1 < 60000 := not_lt.mpr h
        simp [this]

theorem addStock_twice_witness :
    (addStock (addStock emptySession "apple".toList 0
        (.response 200 (some (.body (some 5)))) 1).session "appl".toList 1000
        (.response 200 (some (.body (some 6)))) 1001).session.chartData
        = [(.str "AAPL".toList, { x := [1, 1001], y := [5, 5], color := "#FF5733".toList })] ∧
      (addStock (addStock emptySession "apple".toList 0
        (.response 200 (some (.body (some 5)))) 1).session "appl".toList 1000
        (.response 200 (some (.body (some 6)))) 1001).fetched = false := by
  obtain ⟨p1, p2, series0, -, -, -, -, -, -, -, -, h⟩ :=
    addStock_twice emptySession "apple".toList "appl".toList 0 1000 1 1001
      (.response 200 (some (.body (some 5)))) (.response 200 (some (.body (some 6))))
      (by unfold Obj.WF; decide) (by decide) (by decide) (by decide)
  refine ⟨by decide, ?_⟩
  have h' := (h (by decide)).not
  simpa using h'

end StockBot
